import Mathlib

/-!
Verification of the workflow scheduling core of `workflow-cloudsim-drlgnn`:
a shallow embedding, in Lean 4, of

* `gym_simulator/algorithms/base_ready_queue.py` (the ready-queue engine),
* `gym_simulator/algorithms/best_fit.py` (the Best-Fit policy),
* `gym_simulator/algorithms/heft.py` (the multi-workflow HEFT wrapper),

together with theorems settling the behavioural claims about them.

Modelling conventions:
* Python floats are modelled by `ℚ` (exact arithmetic); `numpy` infinities in
  the HEFT cost matrix are modelled by `WithTop ℚ`.
* Python dictionaries are modelled as functions into `Option`, so a lookup of
  a missing key is observable (Python would raise `KeyError`); dictionary
  construction from a list of pairs keeps the last binding of a key, as in
  Python.
* Raised exceptions and failed `assert` statements are modelled with
  `Except SchedError`; the dispatch loop is given explicit fuel, so a run
  that would not terminate in Python is distinguished by `SchedError.outOfFuel`.
* `ℚ` division is total (`x / 0 = 0`), while Python raises
  `ZeroDivisionError`; all timing claims carry the positivity hypotheses
  (`cpu_speed_mips > 0`, `memory_mb > 0`) under which the two agree.
-/

/-- Composite task key `(workflow_id, task_id)` (`TaskIdType` in `types.py`). -/
abbrev TaskIdType := Nat × Nat

/-- Task record (`TaskDto` in `types.py`, fields as used by the schedulers). -/
structure TaskDto where
  workflow_id : Nat
  id : Nat
  length : ℚ
  req_memory_mb : ℚ
  child_ids : List Nat
  deriving Repr, DecidableEq

/-- VM record (`VmDto` in `types.py`, fields as used by the schedulers). -/
structure VmDto where
  id : Nat
  cpu_speed_mips : ℚ
  memory_mb : ℚ
  deriving Repr, DecidableEq

/-- Scheduler output record (`VmAssignmentDto` in `types.py`). -/
structure VmAssignmentDto where
  vm_id : Nat
  workflow_id : Nat
  task_id : Nat
  deriving Repr, DecidableEq

/-- `BaseReadyQueueScheduler.tid`: the composite key of a task. -/
def tid (t : TaskDto) : TaskIdType := (t.workflow_id, t.id)

/-- Modelled from the spec: `BaseScheduler.is_vm_suitable` lives in
`algorithms/base.py`, which is not part of the available sources.  The spec
defines suitability as `task.requiredMemoryMb ≤ vm.memoryMb` ("a VM qualifies
for a task only if its memory capacity meets the task's requirement"). -/
def is_vm_suitable (vm : VmDto) (task : TaskDto) : Bool :=
  task.req_memory_mb ≤ vm.memory_mb

/-- The memory-utilization ratio `task.req_memory_mb / vm.memory_mb`
computed inside `BestFitScheduler.schedule_next`. -/
def vmAllocation (task : TaskDto) (vm : VmDto) : ℚ :=
  task.req_memory_mb / vm.memory_mb

/-- Failure conditions of the embedded schedulers.  `noVmFound` is the
`raise Exception("No VM found for task")` of Best-Fit; `assertionFailed`
models a failed Python `assert`; `keyError` / `valueError` model dictionary
and `list.remove` misses; `outOfFuel` marks a dispatch loop that did not
finish within the given fuel (a run that diverges in Python). -/
inductive SchedError where
  | noVmFound
  | assertionFailed
  | keyError
  | valueError
  | outOfFuel
  deriving Repr, DecidableEq

/-- The scan of `BestFitScheduler.schedule_next` over the VM list.  The
accumulator holds the current best VM together with its utilization ratio;
`none` models the Python sentinel `best_vm = None, best_vm_allocation = -inf`
(every real ratio exceeds `-inf` and equals it never, so the first suitable
VM is always taken and the tie branch is unreachable while the accumulator
is `none`).  `est` is the engine's per-VM estimated-completion-time map read
by the tie-break. -/
def bestFitGo (task : TaskDto) (est : Nat → Option ℚ) :
    Option (VmDto × ℚ) → List VmDto → Except SchedError VmDto
  | none, [] => .error .noVmFound
  | some (b, _), [] => .ok b
  | best, vm :: rest =>
    if is_vm_suitable vm task then
      let alloc := vmAllocation task vm
      if 0 ≤ alloc ∧ alloc ≤ 1 then
        match best with
        | none => bestFitGo task est (some (vm, alloc)) rest
        | some (b, ba) =>
          if ba < alloc then bestFitGo task est (some (vm, alloc)) rest
          else if alloc = ba then
            match est vm.id, est b.id with
            | some ev, some eb =>
              if ev < eb then bestFitGo task est (some (vm, alloc)) rest
              else bestFitGo task est (some (b, ba)) rest
            | _, _ => .error .keyError
          else bestFitGo task est (some (b, ba)) rest
      else .error .assertionFailed
    else bestFitGo task est best rest

/-- `BestFitScheduler.schedule_next`: pick the suitable VM with the tightest
memory fit, breaking ratio ties towards the smaller estimated completion
time. -/
def schedule_next (task : TaskDto) (vms : List VmDto) (est : Nat → Option ℚ) :
    Except SchedError VmDto :=
  bestFitGo task est none vms

/-- `BestFitScheduler.choose_next`: the first ready task (`ready_tasks[0]`);
the engine only calls it with a non-empty ready list, modelled by passing
head and tail. -/
def choose_next (h : TaskIdType) (_t : List TaskIdType) : TaskIdType := h

/-- A task/VM selection policy pair (the two abstract methods of
`BaseReadyQueueScheduler` implemented by each subclass).  `scheduleNext`
receives read access to the engine's two live timing maps, as the Python
subclasses read them through `self`. -/
structure SchedPolicy where
  chooseNext : TaskIdType → List TaskIdType → TaskIdType
  scheduleNext : TaskDto → List VmDto → (Nat → Option ℚ) → (TaskIdType → Option ℚ) →
    Except SchedError VmDto

/-- The Best-Fit policy (`BestFitScheduler`). -/
def bestFitPolicy : SchedPolicy :=
  ⟨choose_next, fun task vms evm _ => schedule_next task vms evm⟩

/-- One record of the ghost dispatch log: the dispatched task key, the chosen
VM, and the start time `max(est_vm_completion, est_task_min_start)` and
completion time computed for it at dispatch.  The log is a history variable
used only to state invariants; no engine decision reads it. -/
structure DispatchRecord where
  key : TaskIdType
  vmId : Nat
  start : ℚ
  finish : ℚ
  deriving Repr, DecidableEq

/-- The per-run state of `BaseReadyQueueScheduler.schedule`:
`est_vm_completion_times`, `est_task_min_start_times`, the ready list, the
processed set (kept as the chronological list of dispatched keys; Python
uses a set, of which only membership is observed), the emitted assignments,
and the ghost dispatch log. -/
structure RunState where
  estVm : Nat → Option ℚ
  estTask : TaskIdType → Option ℚ
  ready : List TaskIdType
  processed : List TaskIdType
  assignments : List VmAssignmentDto
  log : List DispatchRecord

instance : Inhabited RunState :=
  ⟨⟨fun _ => none, fun _ => none, [], [], [], []⟩⟩

/-- `{self.tid(_task): _task for _task in tasks}`: dictionary lookup; a later
binding of the same key shadows an earlier one, as in Python. -/
def taskMapLookup (tasks : List TaskDto) (k : TaskIdType) : Option TaskDto :=
  tasks.foldl (fun acc t => if tid t = k then some t else acc) none

/-- `{self.vid(_vm): 0.0 for _vm in vms}`: every listed VM id starts at
completion time `0`. -/
def estVmInit (vms : List VmDto) : Nat → Option ℚ := fun i =>
  if vms.any (fun vm => vm.id = i) then some 0 else none

/-- `{self.tid(_task): 0.0 for _task in tasks}`: every task key starts with
minimum start time `0`. -/
def estTaskInit (tasks : List TaskDto) : TaskIdType → Option ℚ := fun k =>
  if tasks.any (fun t => tid t = k) then some 0 else none

/-- `[self.tid(_task) for _task in tasks if _task.id == 0]`: the initial
ready list. -/
def initialReady (tasks : List TaskDto) : List TaskIdType :=
  (tasks.filter (fun t => t.id = 0)).map tid

/-- The first child loop of the engine: for each `child_id`, raise
`est_task_min_start_times[(wf, child_id)]` to at least `completion`;
reading a key absent from the map is a Python `KeyError`, hence `none`. -/
def childUpdates (wf : Nat) (completion : ℚ) :
    List Nat → (TaskIdType → Option ℚ) → Option (TaskIdType → Option ℚ)
  | [], est => some est
  | cid :: rest, est =>
    match est (wf, cid) with
    | none => none
    | some old =>
      childUpdates wf completion rest
        (fun k => if k = (wf, cid) then some (max completion old) else est k)

/-- `all(self.tid(parent) in processed_tasks for parent in tasks if
parent.workflow_id == task.workflow_id and child_id in parent.child_ids)`. -/
def allParentsProcessed (tasks : List TaskDto) (wf cid : Nat)
    (processed : List TaskIdType) : Bool :=
  tasks.all fun p =>
    !(p.workflow_id = wf && p.child_ids.contains cid) || processed.contains (tid p)

/-- The second child loop of the engine: append each child whose parents are
all processed and which is not already in the ready list. -/
def readyAppend (tasks : List TaskDto) (wf : Nat) (processed : List TaskIdType) :
    List Nat → List TaskIdType → List TaskIdType
  | [], ready => ready
  | cid :: rest, ready =>
    readyAppend tasks wf processed rest
      (if allParentsProcessed tasks wf cid processed && !ready.contains (wf, cid)
       then ready ++ [(wf, cid)] else ready)

/-- One iteration of the dispatch loop of `BaseReadyQueueScheduler.schedule`,
with the ready list already split as `h :: t` (the loop guard guarantees it
non-empty).  Mirrors the statement order of the Python body; every dictionary
read that Python would `KeyError` on, the `assert` inside `get_task`, and a
`choose_next` answer outside the ready list (`list.remove` raising
`ValueError`) are error exits. -/
def engineStep (pol : SchedPolicy) (tasks : List TaskDto) (vms : List VmDto)
    (h : TaskIdType) (t : List TaskIdType) (s : RunState) :
    Except SchedError RunState :=
  let k := pol.chooseNext h t
  if s.ready.contains k then
    let ready' := s.ready.erase k
    let processed' := s.processed ++ [k]
    match taskMapLookup tasks k with
    | none => .error .assertionFailed
    | some task =>
      match pol.scheduleNext task vms s.estVm s.estTask with
      | .error e => .error e
      | .ok vm =>
        let a : VmAssignmentDto := ⟨vm.id, task.workflow_id, task.id⟩
        match s.estVm vm.id, s.estTask (tid task) with
        | some evm, some etk =>
          let start := max evm etk
          let completion := start + task.length / vm.cpu_speed_mips
          let estVm' := fun i => if i = vm.id then some completion else s.estVm i
          match childUpdates task.workflow_id completion task.child_ids s.estTask with
          | none => .error .keyError
          | some estTask' =>
            .ok ⟨estVm', estTask',
                 readyAppend tasks task.workflow_id processed' task.child_ids ready',
                 processed', s.assignments ++ [a],
                 s.log ++ [⟨k, vm.id, start, completion⟩]⟩
        | _, _ => .error .keyError
  else .error .valueError

/-- The `while ready_tasks:` loop, with explicit fuel. -/
def runLoop (pol : SchedPolicy) (tasks : List TaskDto) (vms : List VmDto) :
    Nat → RunState → Except SchedError RunState
  | 0, s =>
    match s.ready with
    | [] => .ok s
    | _ :: _ => .error .outOfFuel
  | Nat.succ m, s =>
    match s.ready with
    | [] => .ok s
    | h :: t => (engineStep pol tasks vms h t s).bind (runLoop pol tasks vms m)

/-- The initial run state built at the top of `schedule`. -/
def initState (tasks : List TaskDto) (vms : List VmDto) : RunState :=
  ⟨estVmInit vms, estTaskInit tasks, initialReady tasks, [], [], []⟩

/-- `BaseReadyQueueScheduler.schedule`: build the fresh run state, drive the
dispatch loop, then enforce `assert len(assignments) == len(tasks)` and
return the assignment list. -/
def schedule (pol : SchedPolicy) (tasks : List TaskDto) (vms : List VmDto)
    (fuel : Nat) : Except SchedError (List VmAssignmentDto) :=
  match runLoop pol tasks vms fuel (initState tasks vms) with
  | .error e => .error e
  | .ok s =>
    if s.assignments.length = tasks.length then .ok s.assignments
    else .error .assertionFailed

/-- The ready-queue engine instantiated with the Best-Fit policy
(`BestFitScheduler().schedule`). -/
def bestFitSchedule (tasks : List TaskDto) (vms : List VmDto) (fuel : Nat) :
    Except SchedError (List VmAssignmentDto) :=
  schedule bestFitPolicy tasks vms fuel

/-- The estimated completion time the Best-Fit tie-break reads for a VM
(defined for VMs whose id is in the map; `0` is a junk default never used
under the map-definedness hypotheses). -/
def ectOf (est : Nat → Option ℚ) (vm : VmDto) : ℚ :=
  (est vm.id).getD 0

/-- The decidable "as good as the final choice" predicate used to state that
Best-Fit returns the earliest-encountered VM among the suitable VMs tied at
the maximal ratio and minimal completion time. -/
def bfTopPred (task : TaskDto) (est : Nat → Option ℚ) (vm : VmDto) : VmDto → Bool :=
  fun u => is_vm_suitable u task &&
    decide (vmAllocation task u = vmAllocation task vm) &&
    decide (ectOf est u = ectOf est vm)

/-- Accumulator invariant of the Best-Fit scan over the already-scanned
prefix: an empty accumulator means no suitable VM was seen; otherwise the
accumulator holds a suitable VM of maximal ratio, of minimal completion time
among the ratio ties, and the first-scanned VM with those three properties,
with the cached ratio being its ratio. -/
def GoInv (task : TaskDto) (est : Nat → Option ℚ) (scanned : List VmDto) :
    Option (VmDto × ℚ) → Prop
  | none => ∀ u ∈ scanned, is_vm_suitable u task = false
  | some (b, ba) =>
      b ∈ scanned ∧ is_vm_suitable b task = true ∧ ba = vmAllocation task b ∧
      (∀ u ∈ scanned, is_vm_suitable u task = true → vmAllocation task u ≤ ba) ∧
      (∀ u ∈ scanned, is_vm_suitable u task = true → vmAllocation task u = ba →
        ectOf est b ≤ ectOf est u) ∧
      (scanned.filter (bfTopPred task est b)).head? = some b

/-! ## Engine invariants

The dispatch-loop proofs assume the data-model invariants stated in the
spec: task keys are unique, entry tasks (local id `0`) have no incoming
edges, no task lists itself as a child, and every listed child id denotes a
task of the same workflow. -/

/-- `p` is a parent of the key `k`: same workflow and `k`'s local id listed
among `p`'s children. -/
def isParent (p : TaskDto) (k : TaskIdType) : Prop :=
  p.workflow_id = k.1 ∧ k.2 ∈ p.child_ids

instance (p : TaskDto) (k : TaskIdType) : Decidable (isParent p k) := by
  unfold isParent; infer_instance

/-- The loop invariant of the dispatch loop.  `readyNodup`/`readyFresh`: the
ready list is duplicate-free and disjoint from the processed set;
`procClosed`: the processed set is closed under parents; `readyParents`:
every ready key is an entry key or has all its parents processed;
`procNodup`/`procKeys`: no key is dispatched twice and only task keys are
dispatched; `readyKeys`: the ready list holds task keys; `assignKeys` and
`logKeys`: the emitted assignments and the ghost log list exactly the
processed keys, in dispatch order. -/
structure EngineInv (tasks : List TaskDto) (s : RunState) : Prop where
  readyNodup : s.ready.Nodup
  readyFresh : ∀ k ∈ s.ready, k ∉ s.processed
  procClosed : ∀ k ∈ s.processed, ∀ p ∈ tasks, isParent p k → tid p ∈ s.processed
  readyParents : ∀ k ∈ s.ready, k.2 = 0 ∨ ∀ p ∈ tasks, isParent p k → tid p ∈ s.processed
  procNodup : s.processed.Nodup
  procKeys : ∀ k ∈ s.processed, k ∈ tasks.map tid
  readyKeys : ∀ k ∈ s.ready, k ∈ tasks.map tid
  assignKeys : s.assignments.map (fun a => (a.workflow_id, a.task_id)) = s.processed
  logKeys : s.log.map DispatchRecord.key = s.processed

/-- The dependency-ordering invariant: in addition to `EngineInv`, every
logged dispatch keeps its completion time below the current minimum start
time of each of its children (`dep1`), and below the logged start time of
any dispatched child (`dep2`). -/
structure DepInv (tasks : List TaskDto) (s : RunState) extends
    EngineInv tasks s : Prop where
  dep1 : ∀ e ∈ s.log, ∀ p ∈ tasks, tid p = e.key → ∀ cid ∈ p.child_ids,
    ∃ q, s.estTask (p.workflow_id, cid) = some q ∧ e.finish ≤ q
  dep2 : ∀ e ∈ s.log, ∀ e' ∈ s.log, ∀ p ∈ tasks, tid p = e.key →
    e'.key.1 = p.workflow_id → e'.key.2 ∈ p.child_ids → e.finish ≤ e'.start

/-- Extract the final state of a successful run (junk default on error);
used only to name concrete run results in witnesses. -/
def okStateD (r : Except SchedError RunState) : RunState :=
  match r with
  | .ok s => s
  | .error _ => default

/-- The final loop state of an engine run (the all-empty default state when
the run fails, so that properties of the log hold vacuously). -/
def finalRunState (pol : SchedPolicy) (tasks : List TaskDto) (vms : List VmDto)
    (fuel : Nat) : RunState :=
  okStateD (runLoop pol tasks vms fuel (initState tasks vms))

/-- Dependency ordering between a parent task `p` and a child task `c` in a
run state: whenever `p` was dispatched, the completion time computed for it
is at most the recorded minimum start time of `c`, and at most the start
time computed for `c` when `c` is dispatched (`start(c) ≥ end(p)`). -/
def DependencyRespected (s : RunState) (p c : TaskDto) : Prop :=
  ∀ e ∈ s.log, e.key = tid p →
    (∃ q, s.estTask (tid c) = some q ∧ e.finish ≤ q) ∧
    ∀ e' ∈ s.log, e'.key = tid c → e.finish ≤ e'.start

/-- The successive completion-time values stored for VM `i` during a run, in
dispatch order (read off the ghost log). -/
def vmFinishSeq (i : Nat) (log : List DispatchRecord) : List ℚ :=
  (log.filter (fun e => e.vmId = i)).map DispatchRecord.finish

/-- The VM's last stored completion time, `0` before any task was assigned
to it (the initialization value). -/
def lastFinishD (i : Nat) (log : List DispatchRecord) : ℚ :=
  (vmFinishSeq i log).getLastD 0

/-- Timing invariant: the live completion-time map always holds each VM's
last stored value, and every VM's stored sequence is non-decreasing. -/
structure TimingInv (s : RunState) : Prop where
  estTracks : ∀ i q, s.estVm i = some q → q = lastFinishD i s.log
  chains : ∀ i, List.Chain' (· ≤ ·) (vmFinishSeq i s.log)

/-- The stored completion-time sequence of every VM is non-decreasing. -/
def VmCompletionMonotone (s : RunState) : Prop :=
  ∀ i, List.Chain' (· ≤ ·) (vmFinishSeq i s.log)

/-! ## Scheduler-object state (claim C5)

`BaseReadyQueueScheduler` stores its run state in instance attributes
(`task_map`, `vm_map`, `est_vm_completion_times`,
`est_task_min_start_times`), all initialized to `None` on a fresh instance.
`schedule` overwrites all four at its start, threads the timing maps
through the dispatch loop (modelled by `RunState`), and before returning
sets only the two `est_*` attributes back to `None` — `task_map` and
`vm_map` keep the finished run's lookups. -/

/-- `{self.vid(_vm): _vm for _vm in vms}` as a lookup. -/
def vmMapLookup (vms : List VmDto) (i : Nat) : Option VmDto :=
  vms.foldl (fun acc v => if v.id = i then some v else acc) none

/-- The four instance attributes of `BaseReadyQueueScheduler`. -/
structure SchedulerObj where
  task_map : Option (TaskIdType → Option TaskDto)
  vm_map : Option (Nat → Option VmDto)
  est_vm_completion_times : Option (Nat → Option ℚ)
  est_task_min_start_times : Option (TaskIdType → Option ℚ)

/-- A fresh scheduler instance: every attribute is `None`. -/
def initialSchedulerObj : SchedulerObj :=
  SchedulerObj.mk none none none none

/-- `BaseReadyQueueScheduler.schedule` including its effect on the instance
attributes: each attribute is assigned at the start (before any read, so
the incoming attribute values are never consulted), the loop runs on the
freshly built state, and on success the two `est_*` attributes are nulled
while `task_map` and `vm_map` keep their values. -/
def scheduleWithObj (pol : SchedPolicy) (obj : SchedulerObj) (tasks : List TaskDto)
    (vms : List VmDto) (fuel : Nat) :
    Except SchedError (SchedulerObj × List VmAssignmentDto) :=
  let obj1 := SchedulerObj.mk (some (taskMapLookup tasks)) obj.vm_map
    obj.est_vm_completion_times obj.est_task_min_start_times
  let obj2 := SchedulerObj.mk obj1.task_map (some (vmMapLookup vms))
    obj1.est_vm_completion_times obj1.est_task_min_start_times
  let obj3 := SchedulerObj.mk obj2.task_map obj2.vm_map (some (estVmInit vms))
    (some (estTaskInit tasks))
  match runLoop pol tasks vms fuel (initState tasks vms) with
  | .error e => .error e
  | .ok s =>
    if s.assignments.length = tasks.length then
      .ok (SchedulerObj.mk obj3.task_map obj3.vm_map none none, s.assignments)
    else .error .assertionFailed

/-! ## HEFT wrapper (`gym_simulator/algorithms/heft.py`)

`HeftScheduler.schedule` groups tasks by workflow, runs the external
package's `heft.schedule_dag` once per workflow (chaining the cumulative
per-VM schedule), extracts each workflow's events by offset id range, and
stably sorts all collected `(start, assignment)` pairs by start time.  The
wrapper is embedded parametrically in `schedule_workflow` — exactly the
seam at which the Python code delegates — and instantiated below with a
spec-modelled implementation of the library. -/

/-- The library's `ScheduleEvent(task, start, end, proc)`; `end` is renamed
`finish` (`end` is a Lean keyword).  Times live in `WithTop ℚ` because the
computation-cost matrix uses `np.inf` for forbidden pairs. -/
structure SchedEvent where
  task : Nat
  start : WithTop ℚ
  finish : WithTop ℚ
  proc : Nat
  deriving Repr, DecidableEq

/-- The library's schedule: an insertion-ordered dictionary from VM id to
that VM's events (`dict[int, list[heft.ScheduleEvent]]`). -/
abbrev ScheduleType := List (Nat × List SchedEvent)

/-- One step of `defaultdict(list)` grouping: append the task to its
workflow's bucket, creating the bucket at the end on first sight (Python
dictionaries preserve key insertion order). -/
def addToGroup (acc : List (Nat × List TaskDto)) (t : TaskDto) :
    List (Nat × List TaskDto) :=
  if acc.any (fun g => g.1 = t.workflow_id) then
    acc.map (fun g => if g.1 = t.workflow_id then (g.1, g.2 ++ [t]) else g)
  else acc ++ [(t.workflow_id, [t])]

/-- `grouped_tasks`: tasks grouped by workflow id, in first-appearance
order. -/
def groupByWf (tasks : List TaskDto) : List (Nat × List TaskDto) :=
  tasks.foldl addToGroup []

/-- The extraction loop body for one workflow: walk the cumulative schedule
(VM by VM, events in order), keep events whose offset-shifted task id lies
in the current workflow's range (`0 <= event.task - offset < len(task_list)`;
the subtraction is over ℤ, as Python ints), and emit
`(event.start, VmAssignmentDto(vm_id, workflow_id, actual_task_id))`. -/
def emitForWorkflow (wfId taskCount offset : Nat) (sched : ScheduleType) :
    List (WithTop ℚ × VmAssignmentDto) :=
  sched.foldl (fun acc entry =>
    acc ++ entry.2.foldl (fun acc2 e =>
      let actual : Int := (e.task : Int) - (offset : Int)
      if 0 ≤ actual ∧ actual < (taskCount : Int) then
        acc2 ++ [(e.start, VmAssignmentDto.mk entry.1 wfId actual.toNat)]
      else acc2) []) []

/-- The per-workflow loop of `HeftScheduler.schedule`: call
`schedule_workflow` (the parameter `sw`), extract the current workflow's
assignments, advance the id offset by the workflow's task count plus its
dummy task, and keep the cumulative schedule for the next workflow. -/
def heftEmitGo (sw : List TaskDto → List VmDto → Option ScheduleType → ScheduleType)
    (vms : List VmDto) :
    List (Nat × List TaskDto) → Option ScheduleType → Nat →
    List (WithTop ℚ × VmAssignmentDto) → List (WithTop ℚ × VmAssignmentDto)
  | [], _, _, acc => acc
  | (w, tl) :: rest, sched, offset, acc =>
    let sched' := sw tl vms sched
    heftEmitGo sw vms rest (some sched') (offset + tl.length + 1)
      (acc ++ emitForWorkflow w tl.length offset sched')

/-- All `(start, assignment)` pairs collected by `HeftScheduler.schedule`,
in emission order, before the final sort. -/
def heftEmit (sw : List TaskDto → List VmDto → Option ScheduleType → ScheduleType)
    (tasks : List TaskDto) (vms : List VmDto) :
    List (WithTop ℚ × VmAssignmentDto) :=
  heftEmitGo sw vms (groupByWf tasks) none 0 []

/-- The comparison used by `assignments.sort(key=lambda x: x[0])`. -/
def heftPairLe (a b : WithTop ℚ × VmAssignmentDto) : Prop := a.1 ≤ b.1

instance : DecidableRel heftPairLe := fun a b => by
  unfold heftPairLe; infer_instance

instance : IsTotal (WithTop ℚ × VmAssignmentDto) heftPairLe :=
  ⟨fun a b => le_total a.1 b.1⟩

instance : IsTrans (WithTop ℚ × VmAssignmentDto) heftPairLe :=
  ⟨fun _ _ _ => le_trans⟩

/-- `assignments.sort(key=lambda x: x[0])`: Python's sort is stable, which
insertion sort realizes (any two stable sorts under the same key agree). -/
def heftPairsSorted (sw : List TaskDto → List VmDto → Option ScheduleType → ScheduleType)
    (tasks : List TaskDto) (vms : List VmDto) :
    List (WithTop ℚ × VmAssignmentDto) :=
  List.insertionSort heftPairLe (heftEmit sw tasks vms)

/-- `HeftScheduler.schedule`, parametric in `schedule_workflow`: the sorted
assignments with the start-time component stripped. -/
def heftScheduleWith (sw : List TaskDto → List VmDto → Option ScheduleType → ScheduleType)
    (tasks : List TaskDto) (vms : List VmDto) : List VmAssignmentDto :=
  (heftPairsSorted sw tasks vms).map Prod.snd

/-! ## Spec-modelled HEFT list scheduling

Modelled from the spec: the upward-rank and insertion-based earliest-finish
list-scheduling procedure that `heft.py` delegates to the external `heft`
package (spec §4.3, which also directs a faithful reimplementation:
"reimplement the upward-rank computation and insertion-based
earliest-finish-time search directly").  Costs live in `WithTop ℚ`; an
unsuitable task/VM pair has cost `⊤` (`np.inf`). -/

/-- Division of an extended cost by a (cardinality) natural number. -/
def wdiv (x : WithTop ℚ) (n : Nat) : WithTop ℚ :=
  x.map (fun q => q / (n : ℚ))

/-- A task's average computation cost across VMs. -/
def avgComp (comp : Nat → Nat → WithTop ℚ) (numVms : Nat) (n : Nat) : WithTop ℚ :=
  wdiv ((List.range numVms).foldl (fun acc j => acc + comp n j) 0) numVms

/-- The average communication cost over all VM pairs (the scalar used in
the rank recurrence). -/
def avgComm (comm : Nat → Nat → ℚ) (numVms : Nat) : ℚ :=
  ((List.range numVms).foldl (fun acc p =>
    acc + (List.range numVms).foldl (fun a2 q2 => a2 + comm p q2) 0) 0) /
    ((numVms * numVms : Nat) : ℚ)

/-- Upward rank, computed with explicit fuel (the DAG's node count bounds
the recursion depth on an acyclic graph): a task's rank is its average
computation cost plus, if it has children, the maximum over children of
the average communication cost plus the child's rank. -/
def rankU (edges : List (Nat × Nat)) (comp : Nat → Nat → WithTop ℚ)
    (numVms : Nat) (cbar : ℚ) : Nat → Nat → WithTop ℚ
  | 0, n => avgComp comp numVms n
  | fuel + 1, n =>
    match (edges.filter (fun e => e.1 = n)).map Prod.snd with
    | [] => avgComp comp numVms n
    | cs =>
      avgComp comp numVms n +
        (cs.map (fun c => (cbar : WithTop ℚ) + rankU edges comp numVms cbar fuel c)).foldl
          max 0

/-- The events already committed to VM `j` in a cumulative schedule. -/
def eventsOf (st : ScheduleType) (j : Nat) : List SchedEvent :=
  ((st.find? (fun entry => entry.1 = j)).map Prod.snd).getD []

/-- The committed event of task `n`, if any. -/
def findTaskEvent (st : ScheduleType) (n : Nat) : Option SchedEvent :=
  st.foldl (fun acc entry => acc <|> entry.2.find? (fun e => e.task = n)) none

/-- A task's dependency-ready time on VM `j`: the maximum over scheduled
parents of the parent's finish time plus the communication cost from the
parent's VM to `j`. -/
def readyTime (edges : List (Nat × Nat)) (comm : Nat → Nat → ℚ)
    (st : ScheduleType) (n j : Nat) : WithTop ℚ :=
  (edges.filter (fun e => e.2 = n)).foldl (fun acc e =>
    match findTaskEvent st e.1 with
    | some ev => max acc (ev.finish + (comm ev.proc j : WithTop ℚ))
    | none => acc) 0

/-- Insertion-based slot search on a VM's (start-sorted) event list: the
earliest start not before the ready time that fits the task either in an
idle gap between committed events or after the last one. -/
def findSlot (ready cost : WithTop ℚ) : List SchedEvent → WithTop ℚ → WithTop ℚ
  | [], prevEnd => max ready prevEnd
  | ev :: rest, prevEnd =>
    if max ready prevEnd + cost ≤ ev.start then max ready prevEnd
    else findSlot ready cost rest ev.finish

/-- Keep a VM's event list sorted by start time when committing an event. -/
def insertEvent (ev : SchedEvent) : List SchedEvent → List SchedEvent
  | [] => [ev]
  | e :: rest => if ev.start ≤ e.start then ev :: e :: rest else e :: insertEvent ev rest

/-- Commit an event to its VM's list. -/
def updProc (st : ScheduleType) (j : Nat) (ev : SchedEvent) : ScheduleType :=
  st.map (fun entry => if entry.1 = j then (entry.1, insertEvent ev entry.2) else entry)

/-- Schedule one task: evaluate every VM's earliest finish (insertion-based)
and commit to the VM with the smallest finish time (ties to the first). -/
def scheduleNode (comp : Nat → Nat → WithTop ℚ) (comm : Nat → Nat → ℚ)
    (edges : List (Nat × Nat)) (numVms : Nat) (st : ScheduleType) (n : Nat) :
    ScheduleType :=
  let choice := (List.range numVms).foldl (fun best j =>
    let ready := readyTime edges comm st n j
    let start := findSlot ready (comp n j) (eventsOf st j) 0
    let finish := start + comp n j
    match best with
    | none => some (j, start, finish)
    | some (bj, bs, bf) => if finish < bf then some (j, start, finish) else some (bj, bs, bf))
    none
  match choice with
  | none => st
  | some (j, start, finish) => updProc st j (SchedEvent.mk n start finish j)

/-- Modelled from the spec: `heft.schedule_dag` — initialize every VM's
list from the carried-over cumulative schedule, process the DAG's nodes in
descending upward-rank order, committing each to its earliest-finish VM. -/
def scheduleDagModelled (edges : List (Nat × Nat)) (comp : Nat → Nat → WithTop ℚ)
    (comm : Nat → Nat → ℚ) (numVms : Nat) (nodes : List Nat)
    (procSched : Option ScheduleType) : ScheduleType :=
  let st0 : ScheduleType := (List.range numVms).map (fun j =>
    (j, match procSched with
        | none => []
        | some ps => eventsOf ps j))
  let cbar := avgComm comm numVms
  let rk := rankU edges comp numVms cbar nodes.length
  let order := List.insertionSort (fun a b => rk b ≤ rk a) nodes
  order.foldl (scheduleNode comp comm edges numVms) st0

/-- The DAG edges built by `schedule_workflow`: every childless task points
at the synthetic exit task, all others at their listed children. -/
def dagEdges (tasks : List TaskDto) (dummy : Nat) : List (Nat × Nat) :=
  tasks.foldl (fun acc t =>
    acc ++ (if t.child_ids.isEmpty then [(t.id, dummy)]
            else t.child_ids.map (fun c => (t.id, c)))) []

/-- `HeftScheduler.schedule_workflow`: the computation-cost matrix (`∞` for
unsuitable pairs, `0` on the dummy row, rows indexed by list position and
dag nodes by task id — the source's contiguous-id assumption, spec §9),
the `1 - eye` communication matrix, the dummy-sink DAG, and the (modelled)
library call chained on the previous cumulative schedule. -/
def schedule_workflow (tasks : List TaskDto) (vms : List VmDto)
    (sched : Option ScheduleType) : ScheduleType :=
  let dummy := tasks.length
  let comp : Nat → Nat → WithTop ℚ := fun i j =>
    match tasks.get? i, vms.get? j with
    | some t, some v =>
      if is_vm_suitable v t then ((t.length / v.cpu_speed_mips : ℚ) : WithTop ℚ) else ⊤
    | _, _ => 0
  let comm : Nat → Nat → ℚ := fun p q2 => if p = q2 then 0 else 1
  let nodes := dummy :: tasks.map (fun t => t.id)
  scheduleDagModelled (dagEdges tasks dummy) comp comm vms.length nodes sched

/-- `HeftScheduler.schedule` with the spec-modelled library. -/
def heftSchedule (tasks : List TaskDto) (vms : List VmDto) : List VmAssignmentDto :=
  heftScheduleWith schedule_workflow tasks vms

/-! ## Basic facts about suitability and the Best-Fit scan -/

theorem is_vm_suitable_iff {vm : VmDto} {task : TaskDto} :
    is_vm_suitable vm task = true ↔ task.req_memory_mb ≤ vm.memory_mb := by
  simp [is_vm_suitable]

/-- For a suitable VM with positive memory and a non-negative requirement,
the utilization ratio is in `[0, 1]`. -/
theorem vmAllocation_mem_unitInterval {task : TaskDto} {vm : VmDto}
    (hreq : 0 ≤ task.req_memory_mb) (hmem : 0 < vm.memory_mb)
    (hsuit : is_vm_suitable vm task = true) :
    0 ≤ vmAllocation task vm ∧ vmAllocation task vm ≤ 1 := by
  refine ⟨div_nonneg hreq hmem.le, ?_⟩
  exact (div_le_one hmem).mpr (is_vm_suitable_iff.mp hsuit)

/-- The Best-Fit scan never stops with the range assertion, whatever the
accumulator, as long as requirements are non-negative and memories positive. -/
theorem bestFitGo_ne_assertionFailed (task : TaskDto) (est : Nat → Option ℚ)
    (hreq : 0 ≤ task.req_memory_mb) :
    ∀ (vms : List VmDto) (best : Option (VmDto × ℚ)),
      (∀ vm ∈ vms, 0 < vm.memory_mb) →
      bestFitGo task est best vms ≠ .error .assertionFailed := by
  intro vms
  induction vms with
  | nil =>
    intro best _
    match best with
    | none => simp [bestFitGo]
    | some (b, ba) => simp [bestFitGo]
  | cons vm rest ih =>
    intro best hmem
    have hmem' : ∀ u ∈ rest, 0 < u.memory_mb := fun u hu => hmem u (by simp [hu])
    have hvm : 0 < vm.memory_mb := hmem vm (by simp)
    by_cases hs : is_vm_suitable vm task = true
    · have hrange := vmAllocation_mem_unitInterval hreq hvm hs
      match best with
      | none =>
        simp only [bestFitGo, hs, if_pos hrange, if_true]
        exact ih _ hmem'
      | some (b, ba) =>
        simp only [bestFitGo, hs, if_pos hrange, if_true]
        by_cases h1 : ba < vmAllocation task vm
        · simp only [if_pos h1]; exact ih _ hmem'
        · simp only [if_neg h1]
          by_cases h2 : vmAllocation task vm = ba
          · simp only [if_pos h2]
            match est vm.id, est b.id with
            | some ev, some eb =>
              by_cases h3 : ev < eb
              · simp only [if_pos h3]; exact ih _ hmem'
              · simp only [if_neg h3]; exact ih _ hmem'
            | some ev, none => simp
            | none, some eb => simp
            | none, none => simp
          · simp only [if_neg h2]; exact ih _ hmem'
    · have hs' : is_vm_suitable vm task = false := by
        simpa using hs
      simp only [bestFitGo, hs', Bool.false_eq_true, if_false]
      exact ih _ hmem'

/-- C10: in Best-Fit's VM selection, if the task's memory requirement is
non-negative and every VM's memory is positive, then every suitable VM's
utilization ratio lies in `[0, 1]` (the division being by a positive
denominator), and the in-loop range assertion of `schedule_next` can never
fail, whatever the engine's completion-time map holds. -/
theorem bestfit_allocation_in_range (task : TaskDto) (vms : List VmDto)
    (est : Nat → Option ℚ)
    (hreq : 0 ≤ task.req_memory_mb) (hmem : ∀ vm ∈ vms, 0 < vm.memory_mb) :
    (∀ vm ∈ vms, is_vm_suitable vm task = true →
        0 ≤ vmAllocation task vm ∧ vmAllocation task vm ≤ 1) ∧
      schedule_next task vms est ≠ .error .assertionFailed := by
  constructor
  · intro vm hvm hsuit
    exact vmAllocation_mem_unitInterval hreq (hmem vm hvm) hsuit
  · exact bestFitGo_ne_assertionFailed task est hreq vms none hmem

/-- Witness for `bestfit_allocation_in_range` at a concrete input. -/
theorem bestfit_allocation_in_range_witness :
    ((0 : ℚ) ≤ 3 ∧ ∀ vm ∈ [VmDto.mk 0 1 4, VmDto.mk 1 2 2], 0 < vm.memory_mb) ∧
      ((∀ vm ∈ [VmDto.mk 0 1 4, VmDto.mk 1 2 2],
          is_vm_suitable vm (TaskDto.mk 0 0 10 3 []) = true →
          0 ≤ vmAllocation (TaskDto.mk 0 0 10 3 []) vm ∧
            vmAllocation (TaskDto.mk 0 0 10 3 []) vm ≤ 1) ∧
        schedule_next (TaskDto.mk 0 0 10 3 []) [VmDto.mk 0 1 4, VmDto.mk 1 2 2]
            (fun _ => some 0) ≠ .error .assertionFailed) :=
  ⟨⟨by norm_num, by decide⟩,
   bestfit_allocation_in_range (TaskDto.mk 0 0 10 3 [])
     [VmDto.mk 0 1 4, VmDto.mk 1 2 2] (fun _ => some 0) (by norm_num) (by decide)⟩

theorem bestFitGo_characterization (task : TaskDto) (est : Nat → Option ℚ)
    (hreq : 0 ≤ task.req_memory_mb) :
    ∀ (rest scanned : List VmDto) (best : Option (VmDto × ℚ)),
      GoInv task est scanned best →
      (∀ u ∈ scanned ++ rest, 0 < u.memory_mb) →
      (∀ u ∈ scanned ++ rest, (est u.id).isSome) →
      (∃ u ∈ scanned ++ rest, is_vm_suitable u task = true) →
      ∃ vm, bestFitGo task est best rest = .ok vm ∧
        vm ∈ scanned ++ rest ∧ is_vm_suitable vm task = true ∧
        (∀ u ∈ scanned ++ rest, is_vm_suitable u task = true →
          vmAllocation task u ≤ vmAllocation task vm) ∧
        (∀ u ∈ scanned ++ rest, is_vm_suitable u task = true →
          vmAllocation task u = vmAllocation task vm → ectOf est vm ≤ ectOf est u) ∧
        ((scanned ++ rest).filter (bfTopPred task est vm)).head? = some vm := by
  intro rest
  induction rest with
  | nil =>
    intro scanned best hinv hmem hest hex
    match best with
    | none =>
      exfalso
      obtain ⟨u, hu, hsuit⟩ := hex
      simp only [List.append_nil] at hu
      exact absurd hsuit (by simp [hinv u hu])
    | some (b, ba) =>
      obtain ⟨hb, hbs, hba, hmax, htie, hhead⟩ := hinv
      refine ⟨b, by simp [bestFitGo], by simp [hb], hbs, ?_, ?_, by simpa using hhead⟩
      · intro u hu hs
        simpa [← hba] using hmax u (by simpa using hu) hs
      · intro u hu hs he
        exact htie u (by simpa using hu) hs (he.trans hba.symm)
  | cons vm rest' ih =>
    intro scanned best hinv hmem hest hex
    have hsc : scanned ++ vm :: rest' = (scanned ++ [vm]) ++ rest' := by simp
    have hvm_mem : vm ∈ scanned ++ vm :: rest' := by simp
    have hmem' : ∀ u ∈ (scanned ++ [vm]) ++ rest', 0 < u.memory_mb := by
      rw [← hsc]; exact hmem
    have hest' : ∀ u ∈ (scanned ++ [vm]) ++ rest', (est u.id).isSome := by
      rw [← hsc]; exact hest
    by_cases hs : is_vm_suitable vm task = true
    · have hrange := vmAllocation_mem_unitInterval hreq (hmem vm hvm_mem) hs
      have hex' : ∃ u ∈ (scanned ++ [vm]) ++ rest', is_vm_suitable u task = true :=
        ⟨vm, by simp, hs⟩
      match best with
      | none =>
        -- first suitable VM: it becomes the accumulator
        have hinv' : GoInv task est (scanned ++ [vm]) (some (vm, vmAllocation task vm)) := by
          refine ⟨by simp, hs, rfl, ?_, ?_, ?_⟩
          · intro u hu hsu
            rcases (List.mem_append.mp hu) with h | h
            · exact absurd hsu (by simp [hinv u h])
            · simp only [List.mem_singleton] at h; subst h; exact le_refl _
          · intro u hu hsu _
            rcases (List.mem_append.mp hu) with h | h
            · exact absurd hsu (by simp [hinv u h])
            · simp only [List.mem_singleton] at h; subst h; exact le_refl _
          · have hnone : scanned.filter (bfTopPred task est vm) = [] := by
              apply List.filter_eq_nil_iff.mpr
              intro u hu
              simp [bfTopPred, hinv u hu]
            simp [List.filter_append, hnone, bfTopPred, hs]
        obtain ⟨w, hw⟩ := ih (scanned ++ [vm]) _ hinv' hmem' hest' hex'
        refine ⟨w, ?_, ?_⟩
        · simpa only [bestFitGo, hs, if_true, if_pos hrange] using hw.1
        · rw [hsc]; exact hw.2
      | some (b, ba) =>
        obtain ⟨hb, hbs, hba, hmax, htie, hhead⟩ := hinv
        have hbmem : b ∈ scanned ++ vm :: rest' := List.mem_append_left _ hb
        by_cases hlt : ba < vmAllocation task vm
        · -- strictly tighter fit: replace
          have hinv' : GoInv task est (scanned ++ [vm]) (some (vm, vmAllocation task vm)) := by
            refine ⟨by simp, hs, rfl, ?_, ?_, ?_⟩
            · intro u hu hsu
              rcases (List.mem_append.mp hu) with h | h
              · exact le_of_lt (lt_of_le_of_lt (hmax u h hsu) hlt)
              · simp only [List.mem_singleton] at h; subst h; exact le_refl _
            · intro u hu hsu heq
              rcases (List.mem_append.mp hu) with h | h
              · exact absurd heq (ne_of_lt (lt_of_le_of_lt (hmax u h hsu) hlt))
              · simp only [List.mem_singleton] at h; subst h; exact le_refl _
            · have hnone : scanned.filter (bfTopPred task est vm) = [] := by
                apply List.filter_eq_nil_iff.mpr
                intro u hu
                by_cases hsu : is_vm_suitable u task = true
                · have := ne_of_lt (lt_of_le_of_lt (hmax u hu hsu) hlt)
                  simp [bfTopPred, this]
                · simp [bfTopPred, hsu]
              simp [List.filter_append, hnone, bfTopPred, hs]
          obtain ⟨w, hw⟩ := ih (scanned ++ [vm]) _ hinv' hmem' hest' hex'
          refine ⟨w, ?_, ?_⟩
          · simpa only [bestFitGo, hs, if_true, if_pos hrange, if_pos hlt] using hw.1
          · rw [hsc]; exact hw.2
        · by_cases heq : vmAllocation task vm = ba
          · -- ratio tie: the completion-time maps are read
            have hvmid : (est vm.id).isSome := hest vm hvm_mem
            have hbid : (est b.id).isSome := hest b hbmem
            obtain ⟨ev, hev⟩ := Option.isSome_iff_exists.mp hvmid
            obtain ⟨eb, heb⟩ := Option.isSome_iff_exists.mp hbid
            have hectv : ectOf est vm = ev := by simp [ectOf, hev]
            have hectb : ectOf est b = eb := by simp [ectOf, heb]
            by_cases hlt2 : ev < eb
            · -- earlier completion: replace
              have hinv' : GoInv task est (scanned ++ [vm]) (some (vm, vmAllocation task vm)) := by
                refine ⟨by simp, hs, rfl, ?_, ?_, ?_⟩
                · intro u hu hsu
                  rcases (List.mem_append.mp hu) with h | h
                  · rw [heq]; exact hmax u h hsu
                  · simp only [List.mem_singleton] at h; subst h; exact le_refl _
                · intro u hu hsu hequ
                  rcases (List.mem_append.mp hu) with h | h
                  · have := htie u h hsu (hequ.trans heq)
                    rw [hectv]
                    calc ev ≤ eb := le_of_lt hlt2
                      _ ≤ ectOf est u := by rw [← hectb]; exact this
                  · simp only [List.mem_singleton] at h; subst h; exact le_refl _
                · have hnone : scanned.filter (bfTopPred task est vm) = [] := by
                    apply List.filter_eq_nil_iff.mpr
                    intro u hu
                    by_cases hsu : is_vm_suitable u task = true
                    · by_cases hequ : vmAllocation task u = vmAllocation task vm
                      · have h1 : ectOf est b ≤ ectOf est u :=
                          htie u hu hsu (hequ.trans heq)
                        have h2 : ectOf est u ≠ ectOf est vm := by
                          rw [hectv, hectb] at *
                          intro hcon
                          rw [hcon] at h1
                          exact absurd hlt2 (not_lt.mpr h1)
                        simp [bfTopPred, h2]
                      · simp [bfTopPred, hequ]
                    · simp [bfTopPred, hsu]
                  simp [List.filter_append, hnone, bfTopPred, hs]
              obtain ⟨w, hw⟩ := ih (scanned ++ [vm]) _ hinv' hmem' hest' hex'
              refine ⟨w, ?_, ?_⟩
              · have : bestFitGo task est (some (b, ba)) (vm :: rest') =
                    bestFitGo task est (some (vm, vmAllocation task vm)) rest' := by
                  simp only [bestFitGo, hs, if_true, if_pos hrange, if_neg hlt, if_pos heq,
                    hev, heb, if_pos hlt2]
                rw [this]; exact hw.1
              · rw [hsc]; exact hw.2
            · -- keep the earlier VM
              have hinv' : GoInv task est (scanned ++ [vm]) (some (b, ba)) := by
                refine ⟨by simp [hb], hbs, hba, ?_, ?_, ?_⟩
                · intro u hu hsu
                  rcases (List.mem_append.mp hu) with h | h
                  · exact hmax u h hsu
                  · simp only [List.mem_singleton] at h; subst h; exact le_of_eq heq
                · intro u hu hsu hequ
                  rcases (List.mem_append.mp hu) with h | h
                  · exact htie u h hsu hequ
                  · simp only [List.mem_singleton] at h; subst h
                    rw [hectb, hectv]; exact not_lt.mp hlt2
                · rw [List.filter_append, List.head?_append, hhead]; rfl
              obtain ⟨w, hw⟩ := ih (scanned ++ [vm]) _ hinv' hmem' hest' hex'
              refine ⟨w, ?_, ?_⟩
              · have : bestFitGo task est (some (b, ba)) (vm :: rest') =
                    bestFitGo task est (some (b, ba)) rest' := by
                  simp only [bestFitGo, hs, if_true, if_pos hrange, if_neg hlt, if_pos heq,
                    hev, heb, if_neg hlt2]
                rw [this]; exact hw.1
              · rw [hsc]; exact hw.2
          · -- strictly worse fit: keep
            have hinv' : GoInv task est (scanned ++ [vm]) (some (b, ba)) := by
              refine ⟨by simp [hb], hbs, hba, ?_, ?_, ?_⟩
              · intro u hu hsu
                rcases (List.mem_append.mp hu) with h | h
                · exact hmax u h hsu
                · simp only [List.mem_singleton] at h; subst h
                  exact not_lt.mp hlt
              · intro u hu hsu hequ
                rcases (List.mem_append.mp hu) with h | h
                · exact htie u h hsu hequ
                · simp only [List.mem_singleton] at h; subst h; exact absurd hequ heq
              · have hvmpred : bfTopPred task est b vm = false := by
                  have : vmAllocation task vm ≠ vmAllocation task b := by rw [← hba]; exact heq
                  simp [bfTopPred, this]
                rw [List.filter_append, List.head?_append, hhead]; rfl
            obtain ⟨w, hw⟩ := ih (scanned ++ [vm]) _ hinv' hmem' hest' hex'
            refine ⟨w, ?_, ?_⟩
            · have : bestFitGo task est (some (b, ba)) (vm :: rest') =
                  bestFitGo task est (some (b, ba)) rest' := by
                simp only [bestFitGo, hs, if_true, if_pos hrange, if_neg hlt, if_neg heq]
              rw [this]; exact hw.1
            · rw [hsc]; exact hw.2
    · -- unsuitable VM: skipped
      have hs' : is_vm_suitable vm task = false := by simpa using hs
      have hex' : ∃ u ∈ (scanned ++ [vm]) ++ rest', is_vm_suitable u task = true := by
        obtain ⟨u, hu, hsu⟩ := hex
        exact ⟨u, by rw [← hsc]; exact hu, hsu⟩
      have hinv' : GoInv task est (scanned ++ [vm]) best := by
        match best with
        | none =>
          intro u hu
          rcases (List.mem_append.mp hu) with h | h
          · exact hinv u h
          · simp only [List.mem_singleton] at h; subst h; exact hs'
        | some (b, ba) =>
          obtain ⟨hb, hbs, hba, hmax, htie, hhead⟩ := hinv
          refine ⟨by simp [hb], hbs, hba, ?_, ?_, ?_⟩
          · intro u hu hsu
            rcases (List.mem_append.mp hu) with h | h
            · exact hmax u h hsu
            · simp only [List.mem_singleton] at h; subst h; rw [hs'] at hsu; cases hsu
          · intro u hu hsu hequ
            rcases (List.mem_append.mp hu) with h | h
            · exact htie u h hsu hequ
            · simp only [List.mem_singleton] at h; subst h; rw [hs'] at hsu; cases hsu
          · have hvmpred : bfTopPred task est b vm = false := by
              simp [bfTopPred, hs']
            rw [List.filter_append, List.head?_append, hhead]; rfl
      obtain ⟨w, hw⟩ := ih (scanned ++ [vm]) best hinv' hmem' hest' hex'
      refine ⟨w, ?_, ?_⟩
      · have : bestFitGo task est best (vm :: rest') = bestFitGo task est best rest' := by
          match best with
          | none => simp only [bestFitGo, hs', Bool.false_eq_true, if_false]
          | some (b, ba) => simp only [bestFitGo, hs', Bool.false_eq_true, if_false]
        rw [this]; exact hw.1
      · rw [hsc]; exact hw.2

/-- C3: for every task and VM list containing at least one suitable VM (with
positive memories, a non-negative requirement, and a completion-time map
defined on the listed VMs, as the engine guarantees), Best-Fit's
`schedule_next` returns a suitable VM of maximal memory-utilization ratio;
among suitable VMs tied at that ratio it returns one of minimal current
estimated completion time, namely the earliest-encountered such VM. -/
theorem bestfit_schedule_next_characterization (task : TaskDto) (vms : List VmDto)
    (est : Nat → Option ℚ)
    (hreq : 0 ≤ task.req_memory_mb) (hmem : ∀ u ∈ vms, 0 < u.memory_mb)
    (hest : ∀ u ∈ vms, (est u.id).isSome)
    (hex : ∃ u ∈ vms, is_vm_suitable u task = true) :
    ∃ vm, schedule_next task vms est = .ok vm ∧
      vm ∈ vms ∧ is_vm_suitable vm task = true ∧
      (∀ u ∈ vms, is_vm_suitable u task = true →
        vmAllocation task u ≤ vmAllocation task vm) ∧
      (∀ u ∈ vms, is_vm_suitable u task = true →
        vmAllocation task u = vmAllocation task vm → ectOf est vm ≤ ectOf est u) ∧
      (vms.filter (bfTopPred task est vm)).head? = some vm := by
  have h := bestFitGo_characterization task est hreq vms [] none
    (by intro u hu; cases hu) (by simpa using hmem) (by simpa using hest)
    (by simpa using hex)
  simpa [schedule_next] using h

/-- Witness for `bestfit_schedule_next_characterization`: three suitable VMs,
ratios `1/2, 1, 1`; the tie between the two ratio-`1` VMs is broken towards
the one with the smaller estimated completion time. -/
theorem bestfit_schedule_next_characterization_witness :
    ((0 : ℚ) ≤ 2 ∧ (∀ u ∈ [VmDto.mk 0 1 4, VmDto.mk 1 1 2, VmDto.mk 2 1 2], 0 < u.memory_mb) ∧
      (∀ u ∈ [VmDto.mk 0 1 4, VmDto.mk 1 1 2, VmDto.mk 2 1 2],
        ((fun i => if i = 1 then some (5 : ℚ) else if i = 2 then some 3 else some 0) u.id).isSome) ∧
      (∃ u ∈ [VmDto.mk 0 1 4, VmDto.mk 1 1 2, VmDto.mk 2 1 2],
        is_vm_suitable u (TaskDto.mk 0 0 10 2 []) = true)) ∧
    (∃ vm, schedule_next (TaskDto.mk 0 0 10 2 []) [VmDto.mk 0 1 4, VmDto.mk 1 1 2, VmDto.mk 2 1 2]
        (fun i => if i = 1 then some (5 : ℚ) else if i = 2 then some 3 else some 0) = .ok vm ∧
      vm ∈ [VmDto.mk 0 1 4, VmDto.mk 1 1 2, VmDto.mk 2 1 2] ∧
      is_vm_suitable vm (TaskDto.mk 0 0 10 2 []) = true ∧
      (∀ u ∈ [VmDto.mk 0 1 4, VmDto.mk 1 1 2, VmDto.mk 2 1 2],
        is_vm_suitable u (TaskDto.mk 0 0 10 2 []) = true →
        vmAllocation (TaskDto.mk 0 0 10 2 []) u ≤ vmAllocation (TaskDto.mk 0 0 10 2 []) vm) ∧
      (∀ u ∈ [VmDto.mk 0 1 4, VmDto.mk 1 1 2, VmDto.mk 2 1 2],
        is_vm_suitable u (TaskDto.mk 0 0 10 2 []) = true →
        vmAllocation (TaskDto.mk 0 0 10 2 []) u = vmAllocation (TaskDto.mk 0 0 10 2 []) vm →
        ectOf (fun i => if i = 1 then some (5 : ℚ) else if i = 2 then some 3 else some 0) vm ≤
          ectOf (fun i => if i = 1 then some (5 : ℚ) else if i = 2 then some 3 else some 0) u) ∧
      ([VmDto.mk 0 1 4, VmDto.mk 1 1 2, VmDto.mk 2 1 2].filter
        (bfTopPred (TaskDto.mk 0 0 10 2 [])
          (fun i => if i = 1 then some (5 : ℚ) else if i = 2 then some 3 else some 0) vm)).head? = some vm) :=
  ⟨⟨by norm_num, by decide, by decide, by decide⟩,
    bestfit_schedule_next_characterization (TaskDto.mk 0 0 10 2 [])
      [VmDto.mk 0 1 4, VmDto.mk 1 1 2, VmDto.mk 2 1 2]
      (fun i => if i = 1 then some (5 : ℚ) else if i = 2 then some 3 else some 0)
      (by norm_num) (by decide) (by decide) (by decide)⟩

theorem taskMapLookup_spec {tasks : List TaskDto} {k : TaskIdType} {t : TaskDto} :
    taskMapLookup tasks k = some t → tid t = k ∧ t ∈ tasks := by
  suffices h : ∀ (l : List TaskDto) (acc : Option TaskDto),
      l.foldl (fun acc u => if tid u = k then some u else acc) acc = some t →
      (tid t = k ∧ t ∈ l) ∨ acc = some t by
    intro hl
    rcases h tasks none hl with h' | h'
    · exact ⟨h'.1, h'.2⟩
    · cases h'
  intro l
  induction l with
  | nil => intro acc h; exact Or.inr h
  | cons x xs ih =>
    intro acc h
    simp only [List.foldl_cons] at h
    rcases ih _ h with h' | h'
    · exact Or.inl ⟨h'.1, by simp [h'.2]⟩
    · by_cases hx : tid x = k
      · rw [if_pos hx] at h'
        cases h'
        exact Or.inl ⟨hx, by simp⟩
      · rw [if_neg hx] at h'
        exact Or.inr h'

theorem foldl_lookup_frozen {k : TaskIdType} :
    ∀ (l : List TaskDto) (acc : Option TaskDto), (∀ u ∈ l, tid u ≠ k) →
      l.foldl (fun acc u => if tid u = k then some u else acc) acc = acc := by
  intro l
  induction l with
  | nil => intro acc _; rfl
  | cons x xs ih =>
    intro acc hl
    have hx : tid x ≠ k := hl x (by simp)
    simp only [List.foldl_cons, if_neg hx]
    exact ih acc (fun u hu => hl u (by simp [hu]))

/-- With unique task keys, the task dictionary maps each task's key back to
that task. -/
theorem taskMapLookup_of_nodup {tasks : List TaskDto}
    (hnd : (tasks.map tid).Nodup) {t : TaskDto} (ht : t ∈ tasks) :
    taskMapLookup tasks (tid t) = some t := by
  induction tasks with
  | nil => cases ht
  | cons x xs ih =>
    simp only [List.map_cons, List.nodup_cons] at hnd
    rcases List.mem_cons.mp ht with h | h
    · subst h
      have hfresh : ∀ u ∈ xs, tid u ≠ tid t := by
        intro u hu hcon
        exact hnd.1 (hcon ▸ List.mem_map_of_mem tid hu)
      unfold taskMapLookup
      simp only [List.foldl_cons, if_pos rfl]
      exact foldl_lookup_frozen xs _ hfresh
    · have hx : tid x ≠ tid t := by
        intro hcon
        exact hnd.1 (hcon ▸ List.mem_map_of_mem tid h)
      unfold taskMapLookup
      simp only [List.foldl_cons, if_neg hx]
      exact ih hnd.2 h

/-- With unique task keys, two listed tasks with the same key are equal. -/
theorem eq_of_tid_eq {tasks : List TaskDto} (hnd : (tasks.map tid).Nodup)
    {p q : TaskDto} (hp : p ∈ tasks) (hq : q ∈ tasks) (h : tid p = tid q) : p = q := by
  have h1 := taskMapLookup_of_nodup hnd hp
  have h2 := taskMapLookup_of_nodup hnd hq
  rw [h] at h1
  rw [h1] at h2
  exact Option.some_injective _ h2

theorem allParentsProcessed_iff {tasks : List TaskDto} {wf cid : Nat}
    {processed : List TaskIdType} :
    allParentsProcessed tasks wf cid processed = true ↔
      ∀ p ∈ tasks, p.workflow_id = wf → cid ∈ p.child_ids → tid p ∈ processed := by
  simp only [allParentsProcessed, List.all_eq_true, Bool.or_eq_true, Bool.not_eq_true',
    Bool.and_eq_false_iff, decide_eq_false_iff_not, decide_eq_true_eq]
  constructor
  · intro h p hp hwf hcid
    rcases h p hp with h' | h'
    · rcases h' with h'' | h''
      · exact absurd hwf h''
      · exact absurd hcid (by simpa using h'')
    · simpa using h'
  · intro h p hp
    by_cases hwf : p.workflow_id = wf
    · by_cases hcid : cid ∈ p.child_ids
      · exact Or.inr (by simpa using h p hp hwf hcid)
      · exact Or.inl (Or.inr (by simpa using hcid))
    · exact Or.inl (Or.inl hwf)

theorem readyAppend_mem_cases {tasks : List TaskDto} {wf : Nat}
    {processed : List TaskIdType} :
    ∀ (cids : List Nat) (ready : List TaskIdType) (x : TaskIdType),
      x ∈ readyAppend tasks wf processed cids ready →
      x ∈ ready ∨ ∃ cid ∈ cids, x = (wf, cid) ∧
        allParentsProcessed tasks wf cid processed = true := by
  intro cids
  induction cids with
  | nil => intro ready x hx; exact Or.inl hx
  | cons cid rest ih =>
    intro ready x hx
    unfold readyAppend at hx
    rcases ih _ x hx with h | h
    · by_cases hg : allParentsProcessed tasks wf cid processed &&
          !ready.contains (wf, cid)
      · rw [if_pos hg] at h
        rcases List.mem_append.mp h with h' | h'
        · exact Or.inl h'
        · simp only [List.mem_singleton] at h'
          refine Or.inr ⟨cid, by simp, h', ?_⟩
          exact ((Bool.and_eq_true _ _).mp hg).1
      · rw [if_neg hg] at h
        exact Or.inl h
    · obtain ⟨c, hc, hxc, hpp⟩ := h
      exact Or.inr ⟨c, by simp [hc], hxc, hpp⟩

theorem readyAppend_nodup {tasks : List TaskDto} {wf : Nat}
    {processed : List TaskIdType} :
    ∀ (cids : List Nat) (ready : List TaskIdType), ready.Nodup →
      (readyAppend tasks wf processed cids ready).Nodup := by
  intro cids
  induction cids with
  | nil => intro ready hr; exact hr
  | cons cid rest ih =>
    intro ready hr
    unfold readyAppend
    by_cases hg : allParentsProcessed tasks wf cid processed &&
        !ready.contains (wf, cid)
    · rw [if_pos hg]
      refine ih _ ?_
      have hnotmem : (wf, cid) ∉ ready := by
        have := ((Bool.and_eq_true _ _).mp hg).2
        simpa using this
      simpa [List.nodup_append] using ⟨hr, hnotmem⟩
    · rw [if_neg hg]
      exact ih _ hr

/-- Keys already in the ready list survive `readyAppend`. -/
theorem readyAppend_mem_of_mem {tasks : List TaskDto} {wf : Nat}
    {processed : List TaskIdType} :
    ∀ (cids : List Nat) (ready : List TaskIdType) (x : TaskIdType),
      x ∈ ready → x ∈ readyAppend tasks wf processed cids ready := by
  intro cids
  induction cids with
  | nil => intro ready x hx; exact hx
  | cons cid rest ih =>
    intro ready x hx
    unfold readyAppend
    by_cases hg : allParentsProcessed tasks wf cid processed &&
        !ready.contains (wf, cid)
    · rw [if_pos hg]; exact ih _ x (by simp [hx])
    · rw [if_neg hg]; exact ih _ x hx

theorem childUpdates_mono {wf : Nat} {completion : ℚ} :
    ∀ (cids : List Nat) (est est' : TaskIdType → Option ℚ),
      childUpdates wf completion cids est = some est' →
      ∀ k q, est k = some q → ∃ q', est' k = some q' ∧ q ≤ q' := by
  intro cids
  induction cids with
  | nil =>
    intro est est' h k q hk
    cases h
    exact ⟨q, hk, le_refl q⟩
  | cons cid rest ih =>
    intro est est' h k q hk
    unfold childUpdates at h
    cases hc : est (wf, cid) with
    | none => rw [hc] at h; cases h
    | some old =>
      rw [hc] at h
      by_cases hkk : k = (wf, cid)
      · subst hkk
        have hupd : (fun k' => if k' = (wf, cid) then some (max completion old) else est k')
            (wf, cid) = some (max completion old) := by simp
        obtain ⟨q', hq', hle⟩ := ih _ _ h (wf, cid) (max completion old) hupd
        refine ⟨q', hq', ?_⟩
        have hqo : q = old := by rw [hk] at hc; exact Option.some_injective _ hc
        subst hqo
        exact le_trans (le_max_right _ _) hle
      · have hupd : (fun k' => if k' = (wf, cid) then some (max completion old) else est k') k
            = some q := by simp [hkk, hk]
        exact ih _ _ h k q hupd

theorem childUpdates_ge {wf : Nat} {completion : ℚ} :
    ∀ (cids : List Nat) (est est' : TaskIdType → Option ℚ),
      childUpdates wf completion cids est = some est' →
      ∀ cid ∈ cids, ∃ q, est' (wf, cid) = some q ∧ completion ≤ q := by
  intro cids
  induction cids with
  | nil => intro est est' _ cid hc; cases hc
  | cons c rest ih =>
    intro est est' h cid hc
    unfold childUpdates at h
    cases hc0 : est (wf, c) with
    | none => rw [hc0] at h; cases h
    | some old =>
      rw [hc0] at h
      rcases List.mem_cons.mp hc with h' | h'
      · subst h'
        have hupd : (fun k' => if k' = (wf, cid) then some (max completion old) else est k')
            (wf, cid) = some (max completion old) := by simp
        obtain ⟨q', hq', hle⟩ := childUpdates_mono rest _ _ h (wf, cid) _ hupd
        exact ⟨q', hq', le_trans (le_max_left _ _) hle⟩
      · exact ih _ _ h cid h'

/-- Inversion of a successful engine step: the exact data flow of the Python
loop body. -/
theorem engineStep_ok_inversion {pol : SchedPolicy} {tasks : List TaskDto}
    {vms : List VmDto} {h : TaskIdType} {t : List TaskIdType} {s s' : RunState}
    (hst : engineStep pol tasks vms h t s = .ok s') :
    ∃ task vm evm etk est',
      pol.chooseNext h t ∈ s.ready ∧
      taskMapLookup tasks (pol.chooseNext h t) = some task ∧
      pol.scheduleNext task vms s.estVm s.estTask = .ok vm ∧
      s.estVm vm.id = some evm ∧
      s.estTask (tid task) = some etk ∧
      childUpdates task.workflow_id (max evm etk + task.length / vm.cpu_speed_mips)
        task.child_ids s.estTask = some est' ∧
      s' = ⟨fun i => if i = vm.id then
              some (max evm etk + task.length / vm.cpu_speed_mips) else s.estVm i,
            est',
            readyAppend tasks task.workflow_id (s.processed ++ [pol.chooseNext h t])
              task.child_ids (s.ready.erase (pol.chooseNext h t)),
            s.processed ++ [pol.chooseNext h t],
            s.assignments ++ [⟨vm.id, task.workflow_id, task.id⟩],
            s.log ++ [⟨pol.chooseNext h t, vm.id, max evm etk,
              max evm etk + task.length / vm.cpu_speed_mips⟩]⟩ := by
  unfold engineStep at hst
  by_cases hmem : s.ready.contains (pol.chooseNext h t) = true
  · simp only [hmem, if_true] at hst
    cases hlook : taskMapLookup tasks (pol.chooseNext h t) with
    | none => simp [hlook] at hst
    | some task =>
      simp only [hlook] at hst
      cases hsched : pol.scheduleNext task vms s.estVm s.estTask with
      | error e => simp [hsched] at hst
      | ok vm =>
        simp only [hsched] at hst
        cases hevm : s.estVm vm.id with
        | none => simp [hevm] at hst
        | some evm =>
          cases hetk : s.estTask (tid task) with
          | none => simp [hevm, hetk] at hst
          | some etk =>
            simp only [hevm, hetk] at hst
            cases hcu : childUpdates task.workflow_id
                (max evm etk + task.length / vm.cpu_speed_mips)
                task.child_ids s.estTask with
            | none => simp [hcu] at hst
            | some est' =>
              simp only [hcu, Except.ok.injEq] at hst
              refine ⟨task, vm, evm, etk, est', ?_, rfl, hsched,
                hevm, hetk, hcu, hst.symm⟩
              simpa using hmem
  · simp only [Bool.not_eq_true] at hmem
    have hnot : pol.chooseNext h t ∉ s.ready := by simpa using hmem
    simp [hnot, hmem] at hst

theorem engineStep_preserves_inv {pol : SchedPolicy} {tasks : List TaskDto}
    {vms : List VmDto} {h : TaskIdType} {t : List TaskIdType} {s s' : RunState}
    (_hNodup : (tasks.map tid).Nodup)
    (hEntry : ∀ p ∈ tasks, 0 ∉ p.child_ids)
    (hSelf : ∀ p ∈ tasks, p.id ∉ p.child_ids)
    (hClosed : ∀ p ∈ tasks, ∀ cid ∈ p.child_ids, (p.workflow_id, cid) ∈ tasks.map tid)
    (hinv : EngineInv tasks s)
    (hst : engineStep pol tasks vms h t s = .ok s') :
    EngineInv tasks s' ∧ s'.processed = s.processed ++ [pol.chooseNext h t] := by
  obtain ⟨task, vm, evm, etk, est', hkmem, hlook, hsched, hevm, hetk, hcu, hs'⟩ :=
    engineStep_ok_inversion hst
  obtain ⟨htid, htask⟩ := taskMapLookup_spec hlook
  set k := pol.chooseNext h t with hk
  have hkproc : k ∉ s.processed := hinv.readyFresh k hkmem
  subst hs'
  refine ⟨⟨?_, ?_, ?_, ?_, ?_, ?_, ?_, ?_, ?_⟩, rfl⟩
  · -- readyNodup
    exact readyAppend_nodup _ _ (hinv.readyNodup.erase k)
  · -- readyFresh
    intro x hx
    rcases readyAppend_mem_cases _ _ x hx with hx' | ⟨cid, hcid, hxc, _⟩
    · have hxk : x ≠ k ∧ x ∈ s.ready :=
        (List.Nodup.mem_erase_iff hinv.readyNodup).mp hx'
      have : x ∉ s.processed := hinv.readyFresh x hxk.2
      simp [List.mem_append, this, hxk.1]
    · subst hxc
      have hpar : isParent task (task.workflow_id, cid) := ⟨rfl, hcid⟩
      intro hin
      rcases List.mem_append.mp hin with hin' | hin'
      · exact absurd (htid ▸ hinv.procClosed _ hin' task htask hpar)
          (hinv.readyFresh k hkmem)
      · simp only [List.mem_singleton] at hin'
        have : cid = task.id := by
          have := htid ▸ hin'
          simp only [tid, Prod.mk.injEq] at this
          exact this.2
        exact hSelf task htask (this ▸ hcid)
  · -- procClosed
    intro x hx p hp hpar
    rcases List.mem_append.mp hx with hx' | hx'
    · exact List.mem_append_left _ (hinv.procClosed x hx' p hp hpar)
    · simp only [List.mem_singleton] at hx'
      subst hx'
      rcases hinv.readyParents _ hkmem with h0 | hall
      · exfalso
        have : (0 : Nat) ∈ p.child_ids := h0 ▸ hpar.2
        exact hEntry p hp this
      · exact List.mem_append_left _ (hall p hp hpar)
  · -- readyParents
    intro x hx
    rcases readyAppend_mem_cases _ _ x hx with hx' | ⟨cid, hcid, hxc, hguard⟩
    · have hxr : x ∈ s.ready := List.erase_subset _ _ hx'
      rcases hinv.readyParents x hxr with h0 | hall
      · exact Or.inl h0
      · exact Or.inr fun p hp hpar => List.mem_append_left _ (hall p hp hpar)
    · subst hxc
      refine Or.inr fun p hp hpar => ?_
      exact allParentsProcessed_iff.mp hguard p hp hpar.1 hpar.2
  · -- procNodup
    simp only [List.nodup_append, List.nodup_singleton]
    exact ⟨hinv.procNodup, trivial, by simpa using hkproc⟩
  · -- procKeys
    intro x hx
    rcases List.mem_append.mp hx with hx' | hx'
    · exact hinv.procKeys x hx'
    · simp only [List.mem_singleton] at hx'
      subst hx'
      exact htid ▸ List.mem_map_of_mem tid htask
  · -- readyKeys
    intro x hx
    rcases readyAppend_mem_cases _ _ x hx with hx' | ⟨cid, hcid, hxc, _⟩
    · exact hinv.readyKeys x (List.erase_subset _ _ hx')
    · subst hxc
      exact hClosed task htask cid hcid
  · -- assignKeys
    simp only [List.map_append, hinv.assignKeys, List.map_cons, List.map_nil]
    have : (task.workflow_id, task.id) = k := htid
    simp [this]
  · -- logKeys
    simp only [List.map_append, hinv.logKeys, List.map_cons, List.map_nil]

theorem initState_inv (tasks : List TaskDto) (vms : List VmDto)
    (hNodup : (tasks.map tid).Nodup) : EngineInv tasks (initState tasks vms) := by
  refine ⟨?_, ?_, ?_, ?_, ?_, ?_, ?_, ?_, ?_⟩
  · have hsub : List.Sublist ((tasks.filter (fun t => t.id = 0)).map tid) (tasks.map tid) :=
      List.Sublist.map tid (List.filter_sublist tasks)
    exact hNodup.sublist hsub
  · intro x hx
    simp [initState]
  · intro x hx
    simp [initState] at hx
  · intro x hx
    simp only [initState, initialReady, List.mem_map, List.mem_filter] at hx
    obtain ⟨u, ⟨hu, hu0⟩, hux⟩ := hx
    left
    have : u.id = 0 := by simpa using hu0
    rw [← hux]
    simpa [tid] using this
  · simp [initState]
  · intro x hx; simp [initState] at hx
  · intro x hx
    simp only [initState, initialReady, List.mem_map, List.mem_filter] at hx
    obtain ⟨u, ⟨hu, _⟩, hux⟩ := hx
    exact hux ▸ List.mem_map_of_mem tid hu
  · simp [initState]
  · simp [initState]

theorem runLoop_preserves_inv {pol : SchedPolicy} {tasks : List TaskDto}
    {vms : List VmDto}
    (hNodup : (tasks.map tid).Nodup)
    (hEntry : ∀ p ∈ tasks, 0 ∉ p.child_ids)
    (hSelf : ∀ p ∈ tasks, p.id ∉ p.child_ids)
    (hClosed : ∀ p ∈ tasks, ∀ cid ∈ p.child_ids, (p.workflow_id, cid) ∈ tasks.map tid) :
    ∀ (n : Nat) (s s' : RunState), EngineInv tasks s →
      runLoop pol tasks vms n s = .ok s' → EngineInv tasks s' := by
  intro n
  induction n with
  | zero =>
    intro s s' hinv hrun
    cases hr : s.ready with
    | nil => simp only [runLoop, hr] at hrun; cases hrun; exact hinv
    | cons a l => simp only [runLoop, hr] at hrun; cases hrun
  | succ m ih =>
    intro s s' hinv hrun
    cases hr : s.ready with
    | nil => simp only [runLoop, hr] at hrun; cases hrun; exact hinv
    | cons a l =>
      simp only [runLoop, hr] at hrun
      cases hstep : engineStep pol tasks vms a l s with
      | error e => rw [hstep] at hrun; simp [Except.bind] at hrun
      | ok s₁ =>
        rw [hstep] at hrun
        simp only [Except.bind] at hrun
        exact ih s₁ s' (engineStep_preserves_inv hNodup hEntry hSelf hClosed hinv hstep).1 hrun

/-- The Best-Fit scan never reports fuel exhaustion (it is loop-free). -/
theorem bestFitGo_ne_outOfFuel (task : TaskDto) (est : Nat → Option ℚ) :
    ∀ (vms : List VmDto) (best : Option (VmDto × ℚ)),
      bestFitGo task est best vms ≠ .error .outOfFuel := by
  intro vms
  induction vms with
  | nil =>
    intro best
    match best with
    | none => simp [bestFitGo]
    | some (b, ba) => simp [bestFitGo]
  | cons vm rest ih =>
    intro best
    by_cases hs : is_vm_suitable vm task = true
    · by_cases hrange : 0 ≤ vmAllocation task vm ∧ vmAllocation task vm ≤ 1
      · match best with
        | none =>
          simp only [bestFitGo, hs, if_pos hrange, if_true]
          exact ih _
        | some (b, ba) =>
          simp only [bestFitGo, hs, if_pos hrange, if_true]
          by_cases h1 : ba < vmAllocation task vm
          · simp only [if_pos h1]; exact ih _
          · simp only [if_neg h1]
            by_cases h2 : vmAllocation task vm = ba
            · simp only [if_pos h2]
              match est vm.id, est b.id with
              | some ev, some eb =>
                by_cases h3 : ev < eb
                · simp only [if_pos h3]; exact ih _
                · simp only [if_neg h3]; exact ih _
              | some ev, none => simp
              | none, some eb => simp
              | none, none => simp
            · simp only [if_neg h2]; exact ih _
      · match best with
        | none => simp only [bestFitGo, hs, if_neg hrange, if_true]; simp
        | some (b, ba) => simp only [bestFitGo, hs, if_neg hrange, if_true]; simp
    · have hs' : is_vm_suitable vm task = false := by simpa using hs
      match best with
      | none => simp only [bestFitGo, hs', Bool.false_eq_true, if_false]; exact ih _
      | some (b, ba) => simp only [bestFitGo, hs', Bool.false_eq_true, if_false]; exact ih _

/-- A single engine step never reports fuel exhaustion, provided the VM
policy does not. -/
theorem engineStep_ne_outOfFuel {pol : SchedPolicy} {tasks : List TaskDto}
    {vms : List VmDto} {h : TaskIdType} {t : List TaskIdType} {s : RunState}
    (hpol : ∀ task vs evm etk, pol.scheduleNext task vs evm etk ≠ .error .outOfFuel) :
    engineStep pol tasks vms h t s ≠ .error .outOfFuel := by
  intro hst
  unfold engineStep at hst
  by_cases hmem : s.ready.contains (pol.chooseNext h t) = true
  · simp only [hmem, if_true] at hst
    cases hlook : taskMapLookup tasks (pol.chooseNext h t) with
    | none => simp [hlook] at hst
    | some task =>
      simp only [hlook] at hst
      cases hsched : pol.scheduleNext task vms s.estVm s.estTask with
      | error e =>
        simp only [hsched] at hst
        simp only [Except.error.injEq] at hst
        exact hpol task vms s.estVm s.estTask (hst ▸ hsched)
      | ok vm =>
        simp only [hsched] at hst
        cases hevm : s.estVm vm.id with
        | none => simp [hevm] at hst
        | some evm =>
          cases hetk : s.estTask (tid task) with
          | none => simp [hevm, hetk] at hst
          | some etk =>
            simp only [hevm, hetk] at hst
            cases hcu : childUpdates task.workflow_id
                (max evm etk + task.length / vm.cpu_speed_mips)
                task.child_ids s.estTask with
            | none => simp [hcu] at hst
            | some est' => simp [hcu] at hst
  · simp only [Bool.not_eq_true] at hmem
    have hnot : pol.chooseNext h t ∉ s.ready := by simpa using hmem
    simp [hnot, hmem] at hst

/-- While the ready list is non-empty, fewer than `tasks.length` keys have
been dispatched. -/
theorem processed_lt_of_ready_nonempty {tasks : List TaskDto} {s : RunState}
    (hinv : EngineInv tasks s) {a : TaskIdType} {l : List TaskIdType}
    (hr : s.ready = a :: l) : s.processed.length < tasks.length := by
  have ha : a ∈ s.ready := by simp [hr]
  have hsub : (s.processed ++ [a]) ⊆ tasks.map tid := by
    intro x hx
    rcases List.mem_append.mp hx with hx' | hx'
    · exact hinv.procKeys x hx'
    · simp only [List.mem_singleton] at hx'
      exact hx' ▸ hinv.readyKeys a ha
  have hnd : (s.processed ++ [a]).Nodup := by
    simp only [List.nodup_append, List.nodup_singleton]
    exact ⟨hinv.procNodup, trivial, by simpa using hinv.readyFresh a ha⟩
  have hsp : List.Subperm (s.processed ++ [a]) (tasks.map tid) :=
    List.Nodup.subperm hnd hsub
  have := List.Subperm.length_le hsp
  simp only [List.length_append, List.length_singleton, List.length_map] at this
  omega

/-- With fuel at least `tasks.length` minus the keys already dispatched, the
dispatch loop never runs out of fuel: it executes at most one iteration per
input task. -/
theorem runLoop_not_outOfFuel {pol : SchedPolicy} {tasks : List TaskDto}
    {vms : List VmDto}
    (hNodup : (tasks.map tid).Nodup)
    (hEntry : ∀ p ∈ tasks, 0 ∉ p.child_ids)
    (hSelf : ∀ p ∈ tasks, p.id ∉ p.child_ids)
    (hClosed : ∀ p ∈ tasks, ∀ cid ∈ p.child_ids, (p.workflow_id, cid) ∈ tasks.map tid)
    (hpol : ∀ task vs evm etk, pol.scheduleNext task vs evm etk ≠ .error .outOfFuel) :
    ∀ (n : Nat) (s : RunState), EngineInv tasks s →
      tasks.length ≤ n + s.processed.length →
      runLoop pol tasks vms n s ≠ .error .outOfFuel := by
  intro n
  induction n with
  | zero =>
    intro s hinv hn
    cases hr : s.ready with
    | nil => simp [runLoop, hr]
    | cons a l =>
      exfalso
      have := processed_lt_of_ready_nonempty hinv hr
      omega
  | succ m ih =>
    intro s hinv hn
    cases hr : s.ready with
    | nil => simp [runLoop, hr]
    | cons a l =>
      simp only [runLoop, hr]
      cases hstep : engineStep pol tasks vms a l s with
      | error e =>
        simp only [Except.bind]
        intro hcon
        simp only [Except.error.injEq] at hcon
        exact engineStep_ne_outOfFuel hpol (hcon ▸ hstep)
      | ok s₁ =>
        simp only [Except.bind]
        have hpres := engineStep_preserves_inv hNodup hEntry hSelf hClosed hinv hstep
        refine ih s₁ hpres.1 ?_
        rw [hpres.2]
        simp only [List.length_append, List.length_singleton]
        omega

/-- C9: on a valid input whose per-workflow child relation is acyclic
(witnessed by a rank function increasing along every edge), the dispatch
loop of the ready-queue engine terminates within `tasks.length` iterations:
run with fuel `tasks.length` it never reports fuel exhaustion, and neither
does `schedule`, whatever the policies do (as long as the VM policy does not
itself report fuel exhaustion, which no policy of the code does). -/
theorem ready_queue_loop_terminates (pol : SchedPolicy) (tasks : List TaskDto)
    (vms : List VmDto) (rank : TaskIdType → Nat)
    (hRank : ∀ p ∈ tasks, ∀ cid ∈ p.child_ids, rank (tid p) < rank (p.workflow_id, cid))
    (hNodup : (tasks.map tid).Nodup)
    (hEntry : ∀ p ∈ tasks, 0 ∉ p.child_ids)
    (hClosed : ∀ p ∈ tasks, ∀ cid ∈ p.child_ids, (p.workflow_id, cid) ∈ tasks.map tid)
    (hpol : ∀ task vs evm etk, pol.scheduleNext task vs evm etk ≠ .error .outOfFuel) :
    runLoop pol tasks vms tasks.length (initState tasks vms) ≠ .error .outOfFuel ∧
      schedule pol tasks vms tasks.length ≠ .error .outOfFuel := by
  have hSelf : ∀ p ∈ tasks, p.id ∉ p.child_ids := by
    intro p hp hcon
    have := hRank p hp p.id hcon
    simp only [tid] at this
    omega
  have hloop := @runLoop_not_outOfFuel pol tasks vms hNodup hEntry hSelf hClosed hpol
    tasks.length (initState tasks vms) (initState_inv tasks vms hNodup)
    (by simp [initState])
  refine ⟨hloop, ?_⟩
  unfold schedule
  cases hrun : runLoop pol tasks vms tasks.length (initState tasks vms) with
  | error e =>
    intro hcon
    simp only [Except.error.injEq] at hcon
    exact hloop (hcon ▸ hrun)
  | ok s => by_cases hl : s.assignments.length = tasks.length <;> simp [hl]

/-- Witness for `ready_queue_loop_terminates`: the Best-Fit scheduler on a
two-task chain. -/
theorem ready_queue_loop_terminates_witness :
    ((∀ p ∈ [TaskDto.mk 0 0 4 1 [1], TaskDto.mk 0 1 6 1 []],
        ∀ cid ∈ p.child_ids, (fun k => k.2) (tid p) < (fun k : TaskIdType => k.2) (p.workflow_id, cid)) ∧
      ([TaskDto.mk 0 0 4 1 [1], TaskDto.mk 0 1 6 1 []].map tid).Nodup) ∧
    (runLoop bestFitPolicy [TaskDto.mk 0 0 4 1 [1], TaskDto.mk 0 1 6 1 []] [VmDto.mk 0 1 2]
        [TaskDto.mk 0 0 4 1 [1], TaskDto.mk 0 1 6 1 []].length
        (initState [TaskDto.mk 0 0 4 1 [1], TaskDto.mk 0 1 6 1 []] [VmDto.mk 0 1 2]) ≠
        .error .outOfFuel ∧
      schedule bestFitPolicy [TaskDto.mk 0 0 4 1 [1], TaskDto.mk 0 1 6 1 []] [VmDto.mk 0 1 2]
        [TaskDto.mk 0 0 4 1 [1], TaskDto.mk 0 1 6 1 []].length ≠ .error .outOfFuel) :=
  ⟨⟨by decide, by decide⟩,
    ready_queue_loop_terminates bestFitPolicy _ _ (fun k => k.2)
      (by decide) (by decide) (by decide) (by decide)
      (fun task vs evm etk => bestFitGo_ne_outOfFuel task evm vs none)⟩

theorem filter_eq_singleton_of_nodup :
    ∀ {l : List TaskIdType}, l.Nodup → ∀ {a : TaskIdType}, a ∈ l →
      l.filter (fun k => k = a) = [a] := by
  intro l
  induction l with
  | nil => intro _ a ha; cases ha
  | cons x xs ih =>
    intro hnd a ha
    simp only [List.nodup_cons] at hnd
    rcases List.mem_cons.mp ha with h | h
    · subst h
      have hnil : xs.filter (fun k => k = a) = [] := by
        apply List.filter_eq_nil_iff.mpr
        intro u hu
        simp only [decide_eq_true_eq]
        intro hcon
        exact hnd.1 (hcon ▸ hu)
      simp [List.filter_cons, hnil]
    · have hx : ¬(x = a) := by
        intro hcon
        exact hnd.1 (hcon ▸ h)
      simp only [List.filter_cons, decide_eq_true_eq, hx, if_false]
      exact ih hnd.2 h

/-- C1: whenever the ready-queue engine's `schedule` returns normally on a
valid input, the assignment list has exactly one entry per input task and
every task's composite key appears in exactly one assignment; and if the
dispatch loop finishes with fewer assignments than tasks, `schedule` fails
with the count assertion instead of returning the partial list. -/
theorem schedule_completeness (pol : SchedPolicy) (tasks : List TaskDto)
    (vms : List VmDto) (fuel : Nat)
    (hNodup : (tasks.map tid).Nodup)
    (hEntry : ∀ p ∈ tasks, 0 ∉ p.child_ids)
    (hSelf : ∀ p ∈ tasks, p.id ∉ p.child_ids)
    (hClosed : ∀ p ∈ tasks, ∀ cid ∈ p.child_ids, (p.workflow_id, cid) ∈ tasks.map tid) :
    (∀ l, schedule pol tasks vms fuel = .ok l →
      l.length = tasks.length ∧
      ∀ t ∈ tasks,
        ((l.map fun a => (a.workflow_id, a.task_id)).filter (fun k => k = tid t)).length = 1) ∧
    (∀ s', runLoop pol tasks vms fuel (initState tasks vms) = .ok s' →
      s'.assignments.length < tasks.length →
      schedule pol tasks vms fuel = .error .assertionFailed) := by
  constructor
  · intro l hok
    unfold schedule at hok
    cases hrun : runLoop pol tasks vms fuel (initState tasks vms) with
    | error e => simp [hrun] at hok
    | ok s' =>
      simp only [hrun] at hok
      by_cases hlen : s'.assignments.length = tasks.length
      · rw [if_pos hlen] at hok
        cases hok
        refine ⟨hlen, ?_⟩
        have hinv := runLoop_preserves_inv hNodup hEntry hSelf hClosed fuel _ _
          (initState_inv tasks vms hNodup) hrun
        have hkeys : s'.assignments.map (fun a => (a.workflow_id, a.task_id)) =
            s'.processed := hinv.assignKeys
        have hlenp : s'.processed.length = tasks.length := by
          rw [← hkeys]
          simpa using hlen
        have hsp : List.Subperm s'.processed (tasks.map tid) :=
          List.Nodup.subperm hinv.procNodup hinv.procKeys
        have hperm : s'.processed.Perm (tasks.map tid) :=
          List.Subperm.perm_of_length_le hsp (by simp [hlenp])
        intro t ht
        rw [hkeys]
        have hmem : tid t ∈ tasks.map tid := List.mem_map_of_mem tid ht
        have hfilter : (tasks.map tid).filter (fun k => k = tid t) = [tid t] :=
          filter_eq_singleton_of_nodup hNodup hmem
        have := (hperm.filter (fun k => decide (k = tid t))).length_eq
        rw [this, hfilter]
        rfl
      · rw [if_neg hlen] at hok
        cases hok
  · intro s' hrun hlt
    unfold schedule
    simp only [hrun]
    rw [if_neg (by omega)]

/-- Witness for `schedule_completeness`: Best-Fit on the diamond workflow of
the spec's scenario (entry 0, branches 1 and 2, join 3; two VMs). -/
theorem schedule_completeness_witness :
    (([TaskDto.mk 0 0 100 1 [1, 2], TaskDto.mk 0 1 200 1 [3], TaskDto.mk 0 2 100 1 [3],
        TaskDto.mk 0 3 50 1 []].map tid).Nodup ∧
      (∀ p ∈ [TaskDto.mk 0 0 100 1 [1, 2], TaskDto.mk 0 1 200 1 [3],
          TaskDto.mk 0 2 100 1 [3], TaskDto.mk 0 3 50 1 []], 0 ∉ p.child_ids)) ∧
    ((∀ l, schedule bestFitPolicy [TaskDto.mk 0 0 100 1 [1, 2], TaskDto.mk 0 1 200 1 [3],
          TaskDto.mk 0 2 100 1 [3], TaskDto.mk 0 3 50 1 []] [VmDto.mk 0 1 2, VmDto.mk 1 2 2] 4 = .ok l →
        l.length = [TaskDto.mk 0 0 100 1 [1, 2], TaskDto.mk 0 1 200 1 [3],
          TaskDto.mk 0 2 100 1 [3], TaskDto.mk 0 3 50 1 []].length ∧
        ∀ t ∈ [TaskDto.mk 0 0 100 1 [1, 2], TaskDto.mk 0 1 200 1 [3],
          TaskDto.mk 0 2 100 1 [3], TaskDto.mk 0 3 50 1 []],
          ((l.map fun a => (a.workflow_id, a.task_id)).filter (fun k => k = tid t)).length = 1) ∧
      (∀ s', runLoop bestFitPolicy [TaskDto.mk 0 0 100 1 [1, 2], TaskDto.mk 0 1 200 1 [3],
          TaskDto.mk 0 2 100 1 [3], TaskDto.mk 0 3 50 1 []] [VmDto.mk 0 1 2, VmDto.mk 1 2 2] 4
          (initState [TaskDto.mk 0 0 100 1 [1, 2], TaskDto.mk 0 1 200 1 [3],
            TaskDto.mk 0 2 100 1 [3], TaskDto.mk 0 3 50 1 []] [VmDto.mk 0 1 2, VmDto.mk 1 2 2]) = .ok s' →
        s'.assignments.length < [TaskDto.mk 0 0 100 1 [1, 2], TaskDto.mk 0 1 200 1 [3],
          TaskDto.mk 0 2 100 1 [3], TaskDto.mk 0 3 50 1 []].length →
        schedule bestFitPolicy [TaskDto.mk 0 0 100 1 [1, 2], TaskDto.mk 0 1 200 1 [3],
          TaskDto.mk 0 2 100 1 [3], TaskDto.mk 0 3 50 1 []] [VmDto.mk 0 1 2, VmDto.mk 1 2 2] 4 =
          .error .assertionFailed)) :=
  ⟨⟨by decide, by decide⟩,
    schedule_completeness bestFitPolicy _ _ 4 (by decide) (by decide) (by decide) (by decide)⟩

/-- With no suitable VM at all, the Best-Fit scan starting from the empty
accumulator raises `noVmFound`. -/
theorem bestFitGo_all_unsuitable {task : TaskDto} {est : Nat → Option ℚ} :
    ∀ {vms : List VmDto}, (∀ vm ∈ vms, is_vm_suitable vm task = false) →
      bestFitGo task est none vms = .error .noVmFound := by
  intro vms
  induction vms with
  | nil => intro _; simp [bestFitGo]
  | cons vm rest ih =>
    intro hall
    have hvm : is_vm_suitable vm task = false := hall vm (by simp)
    simp only [bestFitGo, hvm, Bool.false_eq_true, if_false]
    exact ih (fun u hu => hall u (by simp [hu]))

/-- Every key dispatched during the loop (beyond those already processed)
was looked up in the task dictionary and accepted by the VM policy with the
then-current timing maps. -/
theorem runLoop_processed_dispatch {pol : SchedPolicy} {tasks : List TaskDto}
    {vms : List VmDto} :
    ∀ (n : Nat) (s s' : RunState), runLoop pol tasks vms n s = .ok s' →
      ∀ k ∈ s'.processed, k ∈ s.processed ∨
        ∃ task evm etk vm, taskMapLookup tasks k = some task ∧
          pol.scheduleNext task vms evm etk = .ok vm := by
  intro n
  induction n with
  | zero =>
    intro s s' hrun k hk
    cases hr : s.ready with
    | nil => simp only [runLoop, hr] at hrun; cases hrun; exact Or.inl hk
    | cons a l => simp only [runLoop, hr] at hrun; cases hrun
  | succ m ih =>
    intro s s' hrun k hk
    cases hr : s.ready with
    | nil => simp only [runLoop, hr] at hrun; cases hrun; exact Or.inl hk
    | cons a l =>
      simp only [runLoop, hr] at hrun
      cases hstep : engineStep pol tasks vms a l s with
      | error e => rw [hstep] at hrun; simp [Except.bind] at hrun
      | ok s₁ =>
        rw [hstep] at hrun
        simp only [Except.bind] at hrun
        obtain ⟨task, vm, evm, etk, est', hkmem, hlook, hsched, hevm, hetk, hcu, hs₁⟩ :=
          engineStep_ok_inversion hstep
        rcases ih s₁ s' hrun k hk with hk' | hk'
        · rw [hs₁] at hk'
          simp only at hk'
          rcases List.mem_append.mp hk' with h | h
          · exact Or.inl h
          · simp only [List.mem_singleton] at h
            subst h
            exact Or.inr ⟨task, s.estVm, s.estTask, vm, hlook, hsched⟩
        · exact Or.inr hk'

/-- C4 (amended, Best-Fit side): on a valid input containing a task no VM is
suitable for, the Best-Fit engine run always fails — with `noVmFound`
(ResourceUnavailable) if the task is dispatched, or with the count assertion
or fuel exhaustion if it never becomes ready — and in particular never
returns an assignment list. -/
theorem bestfit_infeasible_task_fails (tasks : List TaskDto) (vms : List VmDto)
    (fuel : Nat)
    (hNodup : (tasks.map tid).Nodup)
    (hEntry : ∀ p ∈ tasks, 0 ∉ p.child_ids)
    (hSelf : ∀ p ∈ tasks, p.id ∉ p.child_ids)
    (hClosed : ∀ p ∈ tasks, ∀ cid ∈ p.child_ids, (p.workflow_id, cid) ∈ tasks.map tid)
    (hinf : ∃ t ∈ tasks, ∀ vm ∈ vms, is_vm_suitable vm t = false) :
    ∃ e, bestFitSchedule tasks vms fuel = .error e := by
  cases hres : bestFitSchedule tasks vms fuel with
  | error e => exact ⟨e, rfl⟩
  | ok l =>
    exfalso
    obtain ⟨t, ht, hall⟩ := hinf
    unfold bestFitSchedule schedule at hres
    cases hrun : runLoop bestFitPolicy tasks vms fuel (initState tasks vms) with
    | error e => simp [hrun] at hres
    | ok s' =>
      simp only [hrun] at hres
      by_cases hlen : s'.assignments.length = tasks.length
      · have hinv := runLoop_preserves_inv hNodup hEntry hSelf hClosed fuel _ _
          (initState_inv tasks vms hNodup) hrun
        have hlenp : s'.processed.length = tasks.length := by
          rw [← hinv.assignKeys]
          simpa using hlen
        have hsp : List.Subperm s'.processed (tasks.map tid) :=
          List.Nodup.subperm hinv.procNodup hinv.procKeys
        have hperm : s'.processed.Perm (tasks.map tid) :=
          List.Subperm.perm_of_length_le hsp (by simp [hlenp])
        have hmem : tid t ∈ s'.processed :=
          hperm.mem_iff.mpr (List.mem_map_of_mem tid ht)
        rcases runLoop_processed_dispatch fuel _ _ hrun (tid t) hmem with h | h
        · simp [initState] at h
        · obtain ⟨task, evm, etk, vm, hlook, hsched⟩ := h
          have : task = t := by
            have := taskMapLookup_of_nodup hNodup ht
            rw [this] at hlook
            exact (Option.some_injective _ hlook).symm
          subst this
          have : bestFitPolicy.scheduleNext task vms evm etk = .error .noVmFound := by
            show schedule_next task vms evm = .error .noVmFound
            exact bestFitGo_all_unsuitable hall
          rw [this] at hsched
          cases hsched
      · rw [if_neg hlen] at hres
        cases hres

/-- Witness for `bestfit_infeasible_task_fails`: one task needing more
memory than the only VM offers. -/
theorem bestfit_infeasible_task_fails_witness :
    (([TaskDto.mk 0 0 5 100 []].map tid).Nodup ∧
      (∃ t ∈ [TaskDto.mk 0 0 5 100 []], ∀ vm ∈ [VmDto.mk 0 1 2],
        is_vm_suitable vm t = false)) ∧
    (∃ e, bestFitSchedule [TaskDto.mk 0 0 5 100 []] [VmDto.mk 0 1 2] 1 = .error e) :=
  ⟨⟨by decide, by decide⟩,
    bestfit_infeasible_task_fails [TaskDto.mk 0 0 5 100 []] [VmDto.mk 0 1 2] 1
      (by decide) (by decide) (by decide) (by decide) (by decide)⟩

theorem engineStep_preserves_depinv {pol : SchedPolicy} {tasks : List TaskDto}
    {vms : List VmDto} {h : TaskIdType} {t : List TaskIdType} {s s' : RunState}
    (hNodup : (tasks.map tid).Nodup)
    (hEntry : ∀ p ∈ tasks, 0 ∉ p.child_ids)
    (hSelf : ∀ p ∈ tasks, p.id ∉ p.child_ids)
    (hClosed : ∀ p ∈ tasks, ∀ cid ∈ p.child_ids, (p.workflow_id, cid) ∈ tasks.map tid)
    (hinv : DepInv tasks s)
    (hst : engineStep pol tasks vms h t s = .ok s') :
    DepInv tasks s' := by
  obtain ⟨task, vm, evm, etk, est', hkmem, hlook, hsched, hevm, hetk, hcu, hs'⟩ :=
    engineStep_ok_inversion hst
  obtain ⟨htid, htask⟩ := taskMapLookup_spec hlook
  set k := pol.chooseNext h t with hk
  have hengine := (engineStep_preserves_inv hNodup hEntry hSelf hClosed
    hinv.toEngineInv hst).1
  refine ⟨hengine, ?_, ?_⟩
  · -- dep1
    rw [hs']
    simp only
    intro e he p hp hpe cid hcid
    rcases List.mem_append.mp he with he' | he'
    · obtain ⟨q, hq, hle⟩ := hinv.dep1 e he' p hp hpe cid hcid
      obtain ⟨q', hq', hle'⟩ := childUpdates_mono task.child_ids _ _ hcu _ q hq
      exact ⟨q', hq', le_trans hle hle'⟩
    · simp only [List.mem_singleton] at he'
      subst he'
      simp only at hpe
      have hpt : p = task := eq_of_tid_eq hNodup hp htask (hpe.trans htid.symm)
      subst hpt
      obtain ⟨q, hq, hle⟩ := childUpdates_ge p.child_ids _ _ hcu cid hcid
      exact ⟨q, hq, hle⟩
  · -- dep2
    rw [hs']
    simp only
    intro e he e' he' p hp hpe hwf hcid
    rcases List.mem_append.mp he with heo | heo
    · rcases List.mem_append.mp he' with heo' | heo'
      · exact hinv.dep2 e heo e' heo' p hp hpe hwf hcid
      · simp only [List.mem_singleton] at heo'
        subst heo'
        simp only at hwf hcid ⊢
        obtain ⟨q, hq, hle⟩ := hinv.dep1 e heo p hp hpe k.2 hcid
        have hkey : (p.workflow_id, k.2) = k := by
          rw [← hwf]
        have hketk : s.estTask k = some etk := htid ▸ hetk
        have hqe : q = etk := by
          rw [hkey, hketk] at hq
          exact (Option.some_injective _ hq).symm
        subst hqe
        exact le_trans hle (le_max_right evm q)
    · simp only [List.mem_singleton] at heo
      subst heo
      simp only at hpe
      have hpt : p = task := eq_of_tid_eq hNodup hp htask (hpe.trans htid.symm)
      subst hpt
      rcases List.mem_append.mp he' with heo' | heo'
      · exfalso
        have hproc : e'.key ∈ s.processed := by
          rw [← hinv.logKeys]
          exact List.mem_map_of_mem DispatchRecord.key heo'
        have hpar : isParent p e'.key := ⟨hwf.symm, hcid⟩
        have : tid p ∈ s.processed := hinv.procClosed e'.key hproc p hp hpar
        rw [htid] at this
        exact hinv.readyFresh k hkmem this
      · exfalso
        simp only [List.mem_singleton] at heo'
        subst heo'
        simp only at hwf hcid
        have : p.id ∈ p.child_ids := by
          have hk2 : k.2 = p.id := by
            rw [← htid]
            rfl
          exact hk2 ▸ hcid
        exact hSelf p hp this

theorem initState_depinv (tasks : List TaskDto) (vms : List VmDto)
    (hNodup : (tasks.map tid).Nodup) : DepInv tasks (initState tasks vms) := by
  refine ⟨initState_inv tasks vms hNodup, ?_, ?_⟩
  · intro e he; simp [initState] at he
  · intro e he; simp [initState] at he

theorem runLoop_preserves_depinv {pol : SchedPolicy} {tasks : List TaskDto}
    {vms : List VmDto}
    (hNodup : (tasks.map tid).Nodup)
    (hEntry : ∀ p ∈ tasks, 0 ∉ p.child_ids)
    (hSelf : ∀ p ∈ tasks, p.id ∉ p.child_ids)
    (hClosed : ∀ p ∈ tasks, ∀ cid ∈ p.child_ids, (p.workflow_id, cid) ∈ tasks.map tid) :
    ∀ (n : Nat) (s s' : RunState), DepInv tasks s →
      runLoop pol tasks vms n s = .ok s' → DepInv tasks s' := by
  intro n
  induction n with
  | zero =>
    intro s s' hinv hrun
    cases hr : s.ready with
    | nil => simp only [runLoop, hr] at hrun; cases hrun; exact hinv
    | cons a l => simp only [runLoop, hr] at hrun; cases hrun
  | succ m ih =>
    intro s s' hinv hrun
    cases hr : s.ready with
    | nil => simp only [runLoop, hr] at hrun; cases hrun; exact hinv
    | cons a l =>
      simp only [runLoop, hr] at hrun
      cases hstep : engineStep pol tasks vms a l s with
      | error e => rw [hstep] at hrun; simp [Except.bind] at hrun
      | ok s₁ =>
        rw [hstep] at hrun
        simp only [Except.bind] at hrun
        exact ih s₁ s' (engineStep_preserves_depinv hNodup hEntry hSelf hClosed hinv hstep) hrun

/-- C2: throughout a (valid-input) run of the ready-queue engine, for every
dependency edge parent → child, the completion time computed when the
parent was assigned stays below the child's recorded minimum start time,
and below the start time computed for the child when it is eventually
assigned, so `start(child) ≥ end(parent)`. -/
theorem dependency_ordering (pol : SchedPolicy) (tasks : List TaskDto)
    (vms : List VmDto) (fuel : Nat)
    (hNodup : (tasks.map tid).Nodup)
    (hEntry : ∀ p ∈ tasks, 0 ∉ p.child_ids)
    (hSelf : ∀ p ∈ tasks, p.id ∉ p.child_ids)
    (hClosed : ∀ p ∈ tasks, ∀ cid ∈ p.child_ids, (p.workflow_id, cid) ∈ tasks.map tid) :
    ∀ p ∈ tasks, ∀ c ∈ tasks, c.workflow_id = p.workflow_id → c.id ∈ p.child_ids →
      DependencyRespected (finalRunState pol tasks vms fuel) p c := by
  intro p hp c hc hwf hcid
  unfold finalRunState
  cases hrun : runLoop pol tasks vms fuel (initState tasks vms) with
  | error err =>
    intro x hx _
    exact absurd hx (List.not_mem_nil x)
  | ok s' =>
    simp only [okStateD]
    have hinv := runLoop_preserves_depinv hNodup hEntry hSelf hClosed fuel _ _
      (initState_depinv tasks vms hNodup) hrun
    intro e he hek
    constructor
    · obtain ⟨q, hq, hle⟩ := hinv.dep1 e he p hp hek.symm c.id hcid
      refine ⟨q, ?_, hle⟩
      have : (p.workflow_id, c.id) = tid c := by
        simp [tid, hwf]
      rwa [this] at hq
    · intro e' he' hek'
      refine hinv.dep2 e he e' he' p hp hek.symm ?_ ?_
      · rw [hek']
        simpa [tid] using hwf
      · rw [hek']
        simpa [tid] using hcid

/-- Witness for `dependency_ordering`: the edge `0 → 1` of the diamond
workflow under Best-Fit. -/
theorem dependency_ordering_witness :
    (([TaskDto.mk 0 0 100 1 [1, 2], TaskDto.mk 0 1 200 1 [3], TaskDto.mk 0 2 100 1 [3],
        TaskDto.mk 0 3 50 1 []].map tid).Nodup ∧
      TaskDto.mk 0 0 100 1 [1, 2] ∈ [TaskDto.mk 0 0 100 1 [1, 2], TaskDto.mk 0 1 200 1 [3],
        TaskDto.mk 0 2 100 1 [3], TaskDto.mk 0 3 50 1 []] ∧
      (1 : Nat) ∈ [1, 2]) ∧
    DependencyRespected (finalRunState bestFitPolicy
      [TaskDto.mk 0 0 100 1 [1, 2], TaskDto.mk 0 1 200 1 [3], TaskDto.mk 0 2 100 1 [3],
        TaskDto.mk 0 3 50 1 []] [VmDto.mk 0 1 2, VmDto.mk 1 1 2] 4)
      (TaskDto.mk 0 0 100 1 [1, 2]) (TaskDto.mk 0 1 200 1 [3]) :=
  ⟨⟨by decide, by decide, by decide⟩,
    dependency_ordering bestFitPolicy _ _ 4 (by decide) (by decide) (by decide) (by decide)
      (TaskDto.mk 0 0 100 1 [1, 2]) (by decide) (TaskDto.mk 0 1 200 1 [3]) (by decide)
      (by decide) (by decide)⟩

/-- The scan of Best-Fit only ever answers with a VM from the offered list
(or with the VM already in the accumulator). -/
theorem bestFitGo_mem {task : TaskDto} {est : Nat → Option ℚ} :
    ∀ (rest : List VmDto) (best : Option (VmDto × ℚ)) (vm : VmDto),
      bestFitGo task est best rest = .ok vm →
      (∃ ba, best = some (vm, ba)) ∨ vm ∈ rest := by
  intro rest
  induction rest with
  | nil =>
    intro best vm h
    match best with
    | none => simp [bestFitGo] at h
    | some (b, ba) =>
      simp only [bestFitGo, Except.ok.injEq] at h
      exact Or.inl ⟨ba, by rw [h]⟩
  | cons u rest' ih =>
    intro best vm h
    by_cases hs : is_vm_suitable u task = true
    · by_cases hrange : 0 ≤ vmAllocation task u ∧ vmAllocation task u ≤ 1
      · match best with
        | none =>
          simp only [bestFitGo, hs, if_pos hrange, if_true] at h
          rcases ih _ _ h with ⟨ba, hba⟩ | hmem
          · simp only [Option.some.injEq, Prod.mk.injEq] at hba
            exact Or.inr (by simp [hba.1])
          · exact Or.inr (by simp [hmem])
        | some (b, ba) =>
          simp only [bestFitGo, hs, if_pos hrange, if_true] at h
          by_cases h1 : ba < vmAllocation task u
          · rw [if_pos h1] at h
            rcases ih _ _ h with ⟨ba', hba⟩ | hmem
            · simp only [Option.some.injEq, Prod.mk.injEq] at hba
              exact Or.inr (by simp [hba.1])
            · exact Or.inr (by simp [hmem])
          · rw [if_neg h1] at h
            by_cases h2 : vmAllocation task u = ba
            · rw [if_pos h2] at h
              match hu : est u.id, hb : est b.id with
              | some ev, some eb =>
                simp only [hu, hb] at h
                by_cases h3 : ev < eb
                · rw [if_pos h3] at h
                  rcases ih _ _ h with ⟨ba', hba⟩ | hmem
                  · simp only [Option.some.injEq, Prod.mk.injEq] at hba
                    exact Or.inr (by simp [hba.1])
                  · exact Or.inr (by simp [hmem])
                · rw [if_neg h3] at h
                  rcases ih _ _ h with ⟨ba', hba⟩ | hmem
                  · simp only [Option.some.injEq, Prod.mk.injEq] at hba
                    exact Or.inl ⟨ba', by rw [hba.1, hba.2]⟩
                  · exact Or.inr (by simp [hmem])
              | some ev, none => simp [hu, hb] at h
              | none, some eb => simp [hu, hb] at h
              | none, none => simp [hu, hb] at h
            · rw [if_neg h2] at h
              rcases ih _ _ h with ⟨ba', hba⟩ | hmem
              · simp only [Option.some.injEq, Prod.mk.injEq] at hba
                exact Or.inl ⟨ba', by rw [hba.1, hba.2]⟩
              · exact Or.inr (by simp [hmem])
      · match best with
        | none => simp only [bestFitGo, hs, if_neg hrange, if_true] at h; cases h
        | some (b, ba) => simp only [bestFitGo, hs, if_neg hrange, if_true] at h; cases h
    · have hs' : is_vm_suitable u task = false := by simpa using hs
      match best with
      | none =>
        simp only [bestFitGo, hs', Bool.false_eq_true, if_false] at h
        rcases ih _ _ h with ⟨ba, hba⟩ | hmem
        · cases hba
        · exact Or.inr (by simp [hmem])
      | some (b, ba) =>
        simp only [bestFitGo, hs', Bool.false_eq_true, if_false] at h
        rcases ih _ _ h with ⟨ba', hba⟩ | hmem
        · simp only [Option.some.injEq, Prod.mk.injEq] at hba
          exact Or.inl ⟨ba', by rw [hba.1, hba.2]⟩
        · exact Or.inr (by simp [hmem])

/-- `schedule_next` only returns VMs from the offered list. -/
theorem schedule_next_mem {task : TaskDto} {vms : List VmDto}
    {est : Nat → Option ℚ} {vm : VmDto}
    (h : schedule_next task vms est = .ok vm) : vm ∈ vms := by
  rcases bestFitGo_mem vms none vm h with ⟨ba, hba⟩ | hmem
  · cases hba
  · exact hmem

theorem engineStep_preserves_timing {pol : SchedPolicy} {tasks : List TaskDto}
    {vms : List VmDto} {h : TaskIdType} {t : List TaskIdType} {s s' : RunState}
    (hlen : ∀ u ∈ tasks, 0 ≤ u.length)
    (hspeed : ∀ v ∈ vms, 0 < v.cpu_speed_mips)
    (hpolmem : ∀ task evm etk vm, pol.scheduleNext task vms evm etk = .ok vm → vm ∈ vms)
    (hinv : TimingInv s)
    (hst : engineStep pol tasks vms h t s = .ok s') :
    TimingInv s' := by
  obtain ⟨task, vm, evm, etk, est', hkmem, hlook, hsched, hevm, hetk, hcu, hs'⟩ :=
    engineStep_ok_inversion hst
  obtain ⟨htid, htask⟩ := taskMapLookup_spec hlook
  have hvm : vm ∈ vms := hpolmem task s.estVm s.estTask vm hsched
  have hct : 0 ≤ task.length / vm.cpu_speed_mips :=
    div_nonneg (hlen task htask) (hspeed vm hvm).le
  have hcomp : evm ≤ max evm etk + task.length / vm.cpu_speed_mips :=
    le_trans (le_max_left evm etk) (le_add_of_nonneg_right hct)
  have hlast : evm = lastFinishD vm.id s.log := hinv.estTracks vm.id evm hevm
  subst hs'
  constructor
  · -- estTracks
    intro i q hq
    simp only at hq ⊢
    by_cases hi : i = vm.id
    · subst hi
      rw [if_pos rfl] at hq
      have hq' : q = max evm etk + task.length / vm.cpu_speed_mips :=
        (Option.some_injective _ hq).symm
      subst hq'
      unfold lastFinishD vmFinishSeq
      rw [List.filter_append, List.map_append]
      simp [List.getLastD_concat]
    · rw [if_neg hi] at hq
      have := hinv.estTracks i q hq
      rw [this]
      unfold lastFinishD vmFinishSeq
      rw [List.filter_append]
      have : List.filter (fun e => decide (e.vmId = i))
          [DispatchRecord.mk (pol.chooseNext h t) vm.id (max evm etk)
            (max evm etk + task.length / vm.cpu_speed_mips)] = [] := by
        simp [Ne.symm hi]
      rw [this, List.append_nil]
  · -- chains
    intro i
    simp only
    unfold vmFinishSeq
    rw [List.filter_append, List.map_append]
    by_cases hi : i = vm.id
    · subst hi
      have hone : List.filter (fun e => decide (e.vmId = vm.id))
          [DispatchRecord.mk (pol.chooseNext h t) vm.id (max evm etk)
            (max evm etk + task.length / vm.cpu_speed_mips)] =
          [DispatchRecord.mk (pol.chooseNext h t) vm.id (max evm etk)
            (max evm etk + task.length / vm.cpu_speed_mips)] := by
        simp
      rw [hone]
      rw [List.chain'_append]
      refine ⟨hinv.chains vm.id, by simp, ?_⟩
      intro x hx y hy
      simp only [List.map_cons, List.map_nil, List.head?_cons, Option.mem_def,
        Option.some.injEq] at hy
      subst hy
      have hx' : (vmFinishSeq vm.id s.log).getLast? = some x := hx
      have hxlast : lastFinishD vm.id s.log = x := by
        unfold lastFinishD
        rw [List.getLastD_eq_getLast?, hx']
        rfl
      calc x = evm := (hlast.trans hxlast).symm
        _ ≤ max evm etk + task.length / vm.cpu_speed_mips := hcomp
    · have hnone : List.filter (fun e => decide (e.vmId = i))
          [DispatchRecord.mk (pol.chooseNext h t) vm.id (max evm etk)
            (max evm etk + task.length / vm.cpu_speed_mips)] = [] := by
        simp [Ne.symm hi]
      rw [hnone]
      simpa using hinv.chains i

theorem initState_timing (tasks : List TaskDto) (vms : List VmDto) :
    TimingInv (initState tasks vms) := by
  constructor
  · intro i q hq
    simp only [initState, estVmInit] at hq
    by_cases hi : vms.any (fun vm => vm.id = i)
    · rw [if_pos hi] at hq
      have : q = 0 := (Option.some_injective _ hq).symm
      rw [this]
      rfl
    · rw [if_neg hi] at hq
      cases hq
  · intro i
    simp [initState, vmFinishSeq]

theorem runLoop_preserves_timing {pol : SchedPolicy} {tasks : List TaskDto}
    {vms : List VmDto}
    (hlen : ∀ u ∈ tasks, 0 ≤ u.length)
    (hspeed : ∀ v ∈ vms, 0 < v.cpu_speed_mips)
    (hpolmem : ∀ task evm etk vm, pol.scheduleNext task vms evm etk = .ok vm → vm ∈ vms) :
    ∀ (n : Nat) (s s' : RunState), TimingInv s →
      runLoop pol tasks vms n s = .ok s' → TimingInv s' := by
  intro n
  induction n with
  | zero =>
    intro s s' hinv hrun
    cases hr : s.ready with
    | nil => simp only [runLoop, hr] at hrun; cases hrun; exact hinv
    | cons a l => simp only [runLoop, hr] at hrun; cases hrun
  | succ m ih =>
    intro s s' hinv hrun
    cases hr : s.ready with
    | nil => simp only [runLoop, hr] at hrun; cases hrun; exact hinv
    | cons a l =>
      simp only [runLoop, hr] at hrun
      cases hstep : engineStep pol tasks vms a l s with
      | error e => rw [hstep] at hrun; simp [Except.bind] at hrun
      | ok s₁ =>
        rw [hstep] at hrun
        simp only [Except.bind] at hrun
        exact ih s₁ s' (engineStep_preserves_timing hlen hspeed hpolmem hinv hstep) hrun

/-- C8: within one run of the ready-queue engine, if every task length is
non-negative and every VM speed is positive (and the VM policy answers with
VMs from the input list, as every policy of the code does), then the
sequence of values successively stored as a given VM's estimated completion
time is non-decreasing. -/
theorem vm_completion_times_monotone (pol : SchedPolicy) (tasks : List TaskDto)
    (vms : List VmDto) (fuel : Nat)
    (hlen : ∀ u ∈ tasks, 0 ≤ u.length)
    (hspeed : ∀ v ∈ vms, 0 < v.cpu_speed_mips)
    (hpolmem : ∀ task evm etk vm, pol.scheduleNext task vms evm etk = .ok vm → vm ∈ vms) :
    VmCompletionMonotone (finalRunState pol tasks vms fuel) := by
  unfold finalRunState
  cases hrun : runLoop pol tasks vms fuel (initState tasks vms) with
  | error err =>
    intro i
    exact List.chain'_nil
  | ok s' =>
    intro i
    simp only [okStateD]
    exact (runLoop_preserves_timing hlen hspeed hpolmem fuel _ _
      (initState_timing tasks vms) hrun).chains i

/-- Witness for `vm_completion_times_monotone`: Best-Fit on the diamond
workflow. -/
theorem vm_completion_times_monotone_witness :
    ((∀ u ∈ [TaskDto.mk 0 0 100 1 [1, 2], TaskDto.mk 0 1 200 1 [3], TaskDto.mk 0 2 100 1 [3],
        TaskDto.mk 0 3 50 1 []], 0 ≤ u.length) ∧
      (∀ v ∈ [VmDto.mk 0 1 2, VmDto.mk 1 1 2], 0 < v.cpu_speed_mips)) ∧
    VmCompletionMonotone (finalRunState bestFitPolicy
      [TaskDto.mk 0 0 100 1 [1, 2], TaskDto.mk 0 1 200 1 [3], TaskDto.mk 0 2 100 1 [3],
        TaskDto.mk 0 3 50 1 []] [VmDto.mk 0 1 2, VmDto.mk 1 1 2] 4) :=
  ⟨⟨by decide, by decide⟩,
    vm_completion_times_monotone bestFitPolicy _ _ 4 (by decide) (by decide)
      (fun task evm etk vm hok => schedule_next_mem hok)⟩

/-- C5 (counterexample): after a successful run, the claim that *all*
per-run state is discarded fails: `task_map` and `vm_map` are still
populated (`isSome`), only the two timing maps are nulled. -/
theorem schedule_state_not_all_discarded :
    (scheduleWithObj bestFitPolicy initialSchedulerObj [TaskDto.mk 0 0 5 1 []]
        [VmDto.mk 0 1 2] 1).toOption.map
      (fun r => (r.1.task_map.isSome, r.1.vm_map.isSome,
        r.1.est_vm_completion_times.isSome, r.1.est_task_min_start_times.isSome)) =
      some (true, true, false, false) := by
  with_unfolding_all rfl

/-- C5 (amended): the two timing maps are nulled before returning, and —
because `schedule` overwrites every attribute before reading any — the
result of an invocation is independent of the attribute values left over
by earlier runs: a run on any scheduler object equals the run on a fresh
scheduler, so no state leaks between invocations even though `task_map`
and `vm_map` remain populated after a run. -/
theorem schedule_reentrant (pol : SchedPolicy) (obj : SchedulerObj) :
    (∀ tasks vms fuel,
      scheduleWithObj pol obj tasks vms fuel =
        scheduleWithObj pol initialSchedulerObj tasks vms fuel) ∧
    (∀ tasks vms fuel obj' l,
      scheduleWithObj pol obj tasks vms fuel = .ok (obj', l) →
      obj'.est_vm_completion_times = none ∧ obj'.est_task_min_start_times = none ∧
      obj'.task_map = some (taskMapLookup tasks) ∧
      obj'.vm_map = some (vmMapLookup vms)) := by
  constructor
  · intro tasks vms fuel
    rfl
  · intro tasks vms fuel obj' l hok
    unfold scheduleWithObj at hok
    cases hrun : runLoop pol tasks vms fuel (initState tasks vms) with
    | error e => simp [hrun] at hok
    | ok s =>
      simp only [hrun] at hok
      by_cases hl : s.assignments.length = tasks.length
      · rw [if_pos hl] at hok
        simp only [Except.ok.injEq, Prod.mk.injEq] at hok
        rw [← hok.1]
        exact ⟨rfl, rfl, rfl, rfl⟩
      · rw [if_neg hl] at hok
        cases hok

theorem filter_orderedInsert_of_key (a : WithTop ℚ × VmAssignmentDto) (q : WithTop ℚ)
    (ha : a.1 = q) :
    ∀ l : List (WithTop ℚ × VmAssignmentDto),
      (l.orderedInsert heftPairLe a).filter (fun b => b.1 = q) =
        a :: l.filter (fun b => b.1 = q) := by
  intro l
  induction l with
  | nil => simp [List.orderedInsert, ha]
  | cons y ys ih =>
    by_cases hr : heftPairLe a y
    · simp only [List.orderedInsert, if_pos hr]
      simp [List.filter_cons, ha]
    · have hy : y.1 < a.1 := by
        have := not_le.mp (fun hcon => hr hcon)
        exact this
      have hyq : ¬(y.1 = q) := by
        rw [← ha]
        exact ne_of_lt hy
      simp only [List.orderedInsert, if_neg hr]
      simp only [List.filter_cons, decide_eq_true_eq, hyq, if_false]
      exact ih

theorem filter_orderedInsert_of_ne (a : WithTop ℚ × VmAssignmentDto) (q : WithTop ℚ)
    (ha : ¬(a.1 = q)) :
    ∀ l : List (WithTop ℚ × VmAssignmentDto),
      (l.orderedInsert heftPairLe a).filter (fun b => b.1 = q) =
        l.filter (fun b => b.1 = q) := by
  intro l
  induction l with
  | nil => simp [List.orderedInsert, ha]
  | cons y ys ih =>
    by_cases hr : heftPairLe a y
    · simp only [List.orderedInsert, if_pos hr]
      simp [List.filter_cons, ha]
    · simp only [List.orderedInsert, if_neg hr]
      simp only [List.filter_cons]
      by_cases hyq : y.1 = q
      · simp only [decide_eq_true_eq, hyq, if_pos rfl] at *
        simp [hyq, ih]
      · simp only [decide_eq_true_eq, hyq, if_false] at *
        simp [hyq, ih]

/-- Stability of the sort: within each start-time class the emission order
is preserved. -/
theorem filter_insertionSort_eq (q : WithTop ℚ) :
    ∀ l : List (WithTop ℚ × VmAssignmentDto),
      (List.insertionSort heftPairLe l).filter (fun b => b.1 = q) =
        l.filter (fun b => b.1 = q) := by
  intro l
  induction l with
  | nil => rfl
  | cons x xs ih =>
    show ((List.insertionSort heftPairLe xs).orderedInsert heftPairLe x).filter
        (fun b => b.1 = q) = (x :: xs).filter (fun b => b.1 = q)
    by_cases hx : x.1 = q
    · rw [filter_orderedInsert_of_key x q hx, ih]
      simp [List.filter_cons, hx]
    · rw [filter_orderedInsert_of_ne x q hx, ih]
      simp [List.filter_cons, hx]

/-- C7: HEFT's returned assignment list is the start-time-sorted emission:
the pairs are pairwise ordered by start time, ties keep their original
emission order (the filter at each start value is unchanged), and the
returned list is exactly the sorted pairs with the times stripped —
whatever the library returns for each workflow. -/
theorem heft_schedule_sorted_stable
    (sw : List TaskDto → List VmDto → Option ScheduleType → ScheduleType)
    (tasks : List TaskDto) (vms : List VmDto) :
    List.Pairwise heftPairLe (heftPairsSorted sw tasks vms) ∧
    (∀ q : WithTop ℚ, (heftPairsSorted sw tasks vms).filter (fun b => b.1 = q) =
      (heftEmit sw tasks vms).filter (fun b => b.1 = q)) ∧
    heftScheduleWith sw tasks vms = (heftPairsSorted sw tasks vms).map Prod.snd := by
  refine ⟨?_, ?_, rfl⟩
  · exact List.sorted_insertionSort heftPairLe (heftEmit sw tasks vms)
  · intro q
    exact filter_insertionSort_eq q (heftEmit sw tasks vms)

/-- C6 (amended): HEFT's `schedule` performs no per-workflow count check —
for every workflow it simply returns however many events passed the
offset-range filter, normally (the count after sorting equals the emitted
count; nothing fails on a mismatch with the workflow's task count). -/
theorem heft_no_count_check
    (sw : List TaskDto → List VmDto → Option ScheduleType → ScheduleType)
    (tasks : List TaskDto) (vms : List VmDto) (w : Nat) :
    ((heftScheduleWith sw tasks vms).filter (fun a => a.workflow_id = w)).length =
      ((heftEmit sw tasks vms).filter (fun b => b.2.workflow_id = w)).length := by
  unfold heftScheduleWith
  rw [List.filter_map]
  rw [List.length_map]
  have hperm := List.perm_insertionSort heftPairLe (heftEmit sw tasks vms)
  have := (hperm.filter (fun b : WithTop ℚ × VmAssignmentDto =>
    decide (b.2.workflow_id = w))).length_eq
  unfold heftPairsSorted
  convert this using 3

/-- C6 (counterexample): with a `schedule_workflow` outcome whose events do
not cover the workflow's task-id range, the range filter yields 0 entries
for a 1-task workflow — and `schedule` still returns normally with the
mismatched (empty) assignment list; no failure path exists in the
wrapper. -/
theorem heft_count_mismatch_silently_returned :
    heftEmit (fun _ _ _ => ([] : ScheduleType)) [TaskDto.mk 0 0 5 1 []]
        [VmDto.mk 0 1 2] = [] ∧
      heftScheduleWith (fun _ _ _ => ([] : ScheduleType)) [TaskDto.mk 0 0 5 1 []]
        [VmDto.mk 0 1 2] = [] ∧
      [TaskDto.mk 0 0 5 1 []].length = 1 :=
  ⟨rfl, rfl, rfl⟩

/-- C4 (counterexample, HEFT side): on an input whose only task needs more
memory than the only VM offers, HEFT does not fail: the task/VM pair gets
cost `∞`, the run completes, and the returned list assigns the infeasible
task to the unsuitable VM. -/
theorem heft_infeasible_task_not_failed :
    heftSchedule [TaskDto.mk 7 0 5 2000 []] [VmDto.mk 0 1 1000] =
        [VmAssignmentDto.mk 0 7 0] ∧
      is_vm_suitable (VmDto.mk 0 1 1000) (TaskDto.mk 7 0 5 2000 []) = false := by
  constructor
  · with_unfolding_all rfl
  · decide
